import Mathlib

/-! `my_diff.cc` : LCS table and backtrace

A shallow embedding of the alignment core of `my_diff.cc`:

* the table allocation and forward pass of `main` (lines 134-167),
* `replace_newlines` (lines 86-95),
* the status block of `draw` that prints the `LCS:` value (lines 68-80),
* the backtrace loop of `main` (lines 171-225).

A C++ `char` is embedded as a Lean `Char`, a `std::string` as a `List Char`,
a `std::vector<std::vector<int>>` as a `List (List Int)`.  The cursor `x`, `y`
is a C++ `int`; it is embedded as an `Int`, and the conversion of the
`size_t` value `size() - 1` to `int` is modelled explicitly.  Table cells are
`int`s bounded by `min n m`, so they never leave the `int` range for a table
that fits in memory and are embedded as unbounded `Int`s.
-/

namespace MyDiff

/-! ## Data model -/

/-- The table `lcs` (and `lcs_attr`): a vector of rows, one row per symbol of `left`. -/
abbrev Table := List (List Int)

/-- Read of `t[i][j]` used by the forward pass (indices are in range there). -/
def cell (t : Table) (i j : Nat) : Int := (t.getD i []).getD j 0

/-- Write `t[i][j] = v`. -/
def setCell (t : Table) (i j : Nat) (v : Int) : Table :=
  t.set i ((t.getD i []).set j v)

/-- Read of a symbol `s[i]` inside the forward pass. -/
def sym (s : List Char) (i : Nat) : Char := s.getD i (Char.ofNat 0)

/-- Lines 134-140: `lcs.resize(left.size())`, then every row `resize(right.size())`. -/
def allocTable (left right : List Char) : Table :=
  List.replicate left.length (List.replicate right.length 0)

/-- Lines 150-157: the body of the forward pass for one cell `(i, j)`. -/
def fillCell (left right : List Char) (lcs : Table) (i j : Nat) : Table :=
  if sym left (i - 1) = sym right (j - 1) then
    setCell lcs i j (cell lcs (i - 1) (j - 1) + 1)
  else
    setCell lcs i j (max (cell lcs (i - 1) j) (cell lcs i (j - 1)))

/-- Line 148: the inner loop `for (j = 1; j < right.size(); j++)` over row `i`. -/
def fillRow (left right : List Char) (lcs : Table) (i : Nat) : Table :=
  (List.range' 1 (right.length - 1)).foldl (fun t j => fillCell left right t i j) lcs

/-- Line 146: the outer loop `for (i = 1; i < left.size(); i++)`. -/
def forwardPass (left right : List Char) (lcs : Table) : Table :=
  (List.range' 1 (left.length - 1)).foldl (fun t i => fillRow left right t i) lcs

/-- Lines 134-167: allocation followed by the forward pass. -/
def buildTable (left right : List Char) : Table :=
  forwardPass left right (allocTable left right)

/-- The C `isspace` in the default "C" locale. -/
def isspace (c : Char) : Bool :=
  c = ' ' ∨ c = '\t' ∨ c = '\n' ∨ c = Char.ofNat 11 ∨ c = Char.ofNat 12 ∨ c = '\r'

/-- Lines 86-95: every whitespace symbol becomes `'^'`. -/
def replace_newlines (str : List Char) : List Char :=
  str.map (fun c => if isspace c then '^' else c)

/-! ## Machine arithmetic -/

/-- The `size_t` value of `s.size() - 1` for a string of length `n` (64-bit wrap). -/
def sizeMinusOne (n : Nat) : Nat := (n + 2 ^ 64 - 1) % 2 ^ 64

/-- Conversion of a `size_t` value to a 32-bit `int`. -/
def toInt (k : Nat) : Int :=
  if k % 2 ^ 32 < 2 ^ 31 then ((k % 2 ^ 32 : Nat) : Int) else ((k % 2 ^ 32 : Nat) : Int) - 2 ^ 32

/-! ## Backtrace (lines 171-225) -/

/-- Read `s[i]` of a `std::string` through an `int` index: defined for
`0 ≤ i ≤ size()` (`s[size()]` is the terminating null); `none` is an
out-of-range access. -/
def strAt (s : List Char) (i : Int) : Option Char :=
  if 0 ≤ i ∧ i.toNat ≤ s.length then some (s.getD i.toNat (Char.ofNat 0)) else none

/-- Write `s[i] = c` of a `std::string` through an `int` index: defined for
`0 ≤ i < size()`. -/
def strSet (s : List Char) (i : Int) (c : Char) : Option (List Char) :=
  if 0 ≤ i ∧ i.toNat < s.length then some (s.set i.toNat c) else none

/-- Access `t[i][j]` of the table through `int` indices; `none` is an
out-of-range access. -/
def readCell (t : Table) (i j : Int) : Option Int :=
  if 0 ≤ i ∧ 0 ≤ j then (t[i.toNat]?).bind (fun row => row[j.toNat]?) else none

/-- The variables of the backtrace loop: the cursor `x`, `y` and the buffer `output`. -/
structure State where
  x : Int
  y : Int
  output : List Char
deriving DecidableEq, Repr

/-- The branch of the `if` / `else if` chain an iteration takes; `stay` is the
case in which no branch is taken. -/
inductive Rule
  | copy
  | insert
  | delete
  | stay
deriving DecidableEq, Repr

/-- Line 185: `x >= 0 && y >= 0 && left[x] == right[y]`. -/
def copyCond (left right : List Char) (s : State) : Option Bool :=
  if 0 ≤ s.x ∧ 0 ≤ s.y then
    (strAt left s.x).bind (fun a => (strAt right s.y).bind (fun b => some (decide (a = b))))
  else some false

/-- Line 198: `y > 0 && (x <= 0 || lcs[x - 1][y] < lcs[x][y - 1])`. -/
def insertCond (lcs : Table) (s : State) : Option Bool :=
  if 0 < s.y then
    if s.x ≤ 0 then some true
    else (readCell lcs (s.x - 1) s.y).bind (fun a =>
      (readCell lcs s.x (s.y - 1)).bind (fun b => some (decide (a < b))))
  else some false

/-- Line 208: `x > 0 && (y <= 0 || lcs[x - 1][y] >= lcs[x][y - 1])`. -/
def deleteCond (lcs : Table) (s : State) : Option Bool :=
  if 0 < s.x then
    if s.y ≤ 0 then some true
    else (readCell lcs (s.x - 1) s.y).bind (fun a =>
      (readCell lcs s.x (s.y - 1)).bind (fun b => some (decide (a ≥ b))))
  else some false

/-- Lines 187-196: the Copy branch. -/
def copyStep (left right : List Char) (s : State) : Option State :=
  if s.y > s.x then
    (strAt right s.y).bind (fun c => (strSet s.output s.y c).bind (fun out =>
      some ⟨s.x - 1, s.y - 1, out⟩))
  else
    (strAt left s.x).bind (fun c => (strSet s.output s.x c).bind (fun out =>
      some ⟨s.x - 1, s.y - 1, out⟩))

/-- Lines 200-206: the Insert branch. -/
def insertStep (s : State) : Option State :=
  (strSet s.output s.y '+').bind (fun out =>
    if s.y - 1 = 0 then (strSet out 0 '+').bind (fun out0 => some ⟨s.x, s.y - 1, out0⟩)
    else some ⟨s.x, s.y - 1, out⟩)

/-- Lines 210-216: the Delete branch. -/
def deleteStep (s : State) : Option State :=
  (strSet s.output s.x '-').bind (fun out =>
    if s.x - 1 = 0 then (strSet out 0 '-').bind (fun out0 => some ⟨s.x - 1, s.y, out0⟩)
    else some ⟨s.x - 1, s.y, out⟩)

/-- Lines 181-217: one iteration of the backtrace loop.  `lcs_attr` has the
dimensions of `lcs`, so its write at line 183 is checked against `lcs`.
`none` is an out-of-range access. -/
def step (left right : List Char) (lcs : Table) (s : State) : Option (Rule × State) :=
  (strAt left (max s.x 0)).bind (fun _ =>
  (strAt right (max s.y 0)).bind (fun _ =>
  (readCell lcs (max s.x 0) (max s.y 0)).bind (fun _ =>
  (copyCond left right s).bind (fun c =>
    if c then (copyStep left right s).map (fun s1 => (Rule.copy, s1))
    else (insertCond lcs s).bind (fun i =>
      if i then (insertStep s).map (fun s1 => (Rule.insert, s1))
      else (deleteCond lcs s).bind (fun d =>
        if d then (deleteStep s).map (fun s1 => (Rule.delete, s1))
        else some (Rule.stay, s)))))))

/-- How a run of the backtrace loop ends.  `hist` lists the iterations in the
order they ran: the rule applied and the state the iteration started from. -/
inductive Outcome
  | done (final : State) (hist : List (Rule × State))
  | fault (stopped : State) (hist : List (Rule × State))
  | outOfFuel
deriving DecidableEq, Repr

/-- Put an iteration in front of the recorded history. -/
def Outcome.push (e : Rule × State) : Outcome → Outcome
  | .done f h => .done f (e :: h)
  | .fault f h => .fault f (e :: h)
  | .outOfFuel => .outOfFuel

/-- Line 179: `while (x > 0 || y > 0)`, bounded by `fuel` iterations. -/
def loop (left right : List Char) (lcs : Table) : Nat → State → Outcome
  | 0, s => if 0 < s.x ∨ 0 < s.y then .outOfFuel else .done s []
  | fuel + 1, s =>
    if 0 < s.x ∨ 0 < s.y then
      match step left right lcs s with
      | none => .fault s []
      | some (r, s1) => (loop left right lcs fuel s1).push (r, s)
    else .done s []

/-- Lines 171, 176-177: the state the loop starts from, for strings of
lengths `n` and `m`. -/
def initState (n m : Nat) : State :=
  ⟨toInt (sizeMinusOne n), toInt (sizeMinusOne m), List.replicate (max n m) ' '⟩

/-- Lines 169-225 of `main`: the two `replace_newlines` calls, the
initialisation of `output`, `x`, `y` and the loop, on table `lcs`. -/
def backtraceOn (left right : List Char) (lcs : Table) (fuel : Nat) : Outcome :=
  loop (replace_newlines left) (replace_newlines right) lcs fuel
    (initState (replace_newlines left).length (replace_newlines right).length)

/-- Lines 134-225 of `main` without the `draw` calls (see `reportedLcs`): the
table is built from the strings as read, the backtrace runs on the strings
after `replace_newlines`, and `n + m` iterations are always enough fuel. -/
def backtrace (left right : List Char) : Outcome :=
  backtraceOn left right (buildTable left right) (left.length + right.length)

/-- What the status block of `draw` does with the `LCS:` line. -/
inductive Report
  | skipped
  | value (v : Int)
  | fault
deriving DecidableEq, Repr

/-- Lines 68-72 of `draw`: when `output` is not empty the line
`LCS:` prints `lcs[left.size() - 1][right.size() - 1]`. -/
def drawReport (left right : List Char) (lcs : Table) (output : List Char) : Report :=
  if output = [] then .skipped
  else
    match (lcs[sizeMinusOne left.length]?).bind (fun row => row[sizeMinusOne right.length]?) with
    | some v => .value v
    | none => .fault

/-- The `LCS:` value of the `draw` calls of `main` that follow the forward pass
(lines 172 and 228). -/
def reportedLcs (left right : List Char) : Report :=
  drawReport (replace_newlines left) (replace_newlines right) (buildTable left right)
    (List.replicate (max (replace_newlines left).length (replace_newlines right).length) ' ')

/-- The final content of `output`, when the loop ends. -/
def Outcome.output? : Outcome → Option (List Char)
  | .done f _ => some f.output
  | _ => none

/-- The rules applied by the iterations of a run, in the order they ran. -/
def Outcome.rules : Outcome → List Rule
  | .done _ h => h.map Prod.fst
  | .fault _ h => h.map Prod.fst
  | .outOfFuel => []

/-! ## Specification of the LCS length -/

/-- The number `k` is the length of a longest common subsequence of `l` and `r`. -/
def IsLcsLength (l r : List Char) (k : Int) : Prop :=
  (∃ s : List Char, s.Sublist l ∧ s.Sublist r ∧ (s.length : Int) = k) ∧
    ∀ s : List Char, s.Sublist l → s.Sublist r → (s.length : Int) ≤ k

/-- The table has `n` rows of `m` cells each. -/
def Dims (t : Table) (n m : Nat) : Prop :=
  t.length = n ∧ ∀ row ∈ t, row.length = m

/-- Cell `(a, b)` has been settled once the forward pass is about to write `(i, j)`. -/
def Settled (i j a b : Nat) : Prop :=
  a < i ∨ (a = i ∧ b < j) ∨ b = 0

/-- Loop invariant of the forward pass, about to write cell `(i, j)`: the table
keeps its dimensions and every settled cell holds the LCS length of the two prefixes. -/
def FwdInv (left right : List Char) (t : Table) (i j : Nat) : Prop :=
  Dims t left.length right.length ∧
    ∀ a b, a < left.length → b < right.length → Settled i j a b →
      IsLcsLength (left.take a) (right.take b) (cell t a b)

/-- Weight of a rule in the cursor sum `x + y`. -/
def Rule.weight : Rule → Int
  | .copy => 2
  | .insert => 1
  | .delete => 1
  | .stay => 0

/-- Termination measure of the backtrace loop; it is `0` exactly when the loop condition is false. -/
def cursorMeasure (s : State) : Nat := s.x.toNat + s.y.toNat

/-- The states a run went through, in order: the start of every iteration, then
the state the run ended in. -/
def Outcome.visited : Outcome → List State
  | .done f h => h.map Prod.snd ++ [f]
  | .fault f h => h.map Prod.snd ++ [f]
  | .outOfFuel => []

/-- The cursor and the buffer fit the strings and the table: what the loop
needs for every access of an iteration to be in range. -/
def InBounds (left right : List Char) (lcs : Table) (s : State) : Prop :=
  1 ≤ left.length ∧ 1 ≤ right.length ∧ Dims lcs left.length right.length ∧
    s.x < left.length ∧ s.y < right.length ∧
    s.output.length = max left.length right.length

/-- The three characters the loop uses as marks in `output`: the blank of the
initial fill (line 171), `'+'` of the Insert branch, `'-'` of the Delete branch. -/
def isMark (c : Char) : Bool := c = ' ' ∨ c = '+' ∨ c = '-'

/-- The characters of `output` that are not marks, in output order: symbols
written by the Copy branch. -/
def copiedSymbols (out : List Char) : List Char := out.filter (fun c => !isMark c)

/-- The characters of `output` other than the Delete mark, in output order. -/
def nonDeleteSymbols (out : List Char) : List Char := out.filter (fun c => decide (c ≠ '-'))

/-- The characters of `output` other than the Insert mark, in output order. -/
def nonInsertSymbols (out : List Char) : List Char := out.filter (fun c => decide (c ≠ '+'))

/-- Every position of `out` up to `k` holds a mark. -/
def MarksUpTo (out : List Char) (k : Int) : Prop :=
  ∀ p : Nat, (p : Int) ≤ k → ∀ c, out[p]? = some c → isMark c = true

/-- Loop invariant of the backtrace for the copied symbols: nothing but marks
up to the cursor, and the copied symbols are a subsequence of what lies behind
the cursor in both strings. -/
def CopyInv (left right : List Char) (s : State) : Prop :=
  MarksUpTo s.output (max s.x s.y) ∧
    (copiedSymbols s.output).Sublist (left.drop (s.x + 1).toNat) ∧
    (copiedSymbols s.output).Sublist (right.drop (s.y + 1).toNat)

/-- Number of iterations of a run that took the Insert or the Delete branch. -/
def Outcome.insertDeleteCount (o : Outcome) : Nat :=
  o.rules.count Rule.insert + o.rules.count Rule.delete

/-- Number of Insert and Delete marks in `output`. -/
def markCount (out : List Char) : Nat := out.count '+' + out.count '-'

/-- An indexed access of the backtrace loop, with the `int` index it uses:
a read of `left`, a read of `right`, an access of the table (`lcs`, or
`lcs_attr`, which has the same dimensions), a write to `output`. -/
inductive Access
  | leftRead (i : Int)
  | rightRead (i : Int)
  | tableAt (i j : Int)
  | outputWrite (i : Int)
deriving DecidableEq, Repr

/-- The index of an access is within bounds: `0 ≤ index < size` of the container. -/
def Access.inRange (left right : List Char) (lcs : Table) (output : List Char) : Access → Bool
  | .leftRead i => decide (0 ≤ i ∧ i < left.length)
  | .rightRead i => decide (0 ≤ i ∧ i < right.length)
  | .tableAt i j =>
    decide (0 ≤ i ∧ i < lcs.length ∧ 0 ≤ j ∧ j < (lcs.getD i.toNat []).length)
  | .outputWrite i => decide (0 ≤ i ∧ i < output.length)

/-- Lines 200-206: the writes of the Insert branch. -/
def insertAccesses (s : State) : List Access :=
  Access.outputWrite s.y :: (if s.y - 1 = 0 then [Access.outputWrite 0] else [])

/-- Lines 210-216: the writes of the Delete branch. -/
def deleteAccesses (s : State) : List Access :=
  Access.outputWrite s.x :: (if s.x - 1 = 0 then [Access.outputWrite 0] else [])

/-- Lines 187-194: the read and the write of the Copy branch. -/
def copyAccesses (s : State) : List Access :=
  if s.y > s.x then [Access.rightRead s.y, Access.outputWrite s.y]
  else [Access.leftRead s.x, Access.outputWrite s.x]

/-- Lines 198 and 208: the two table reads of a condition, made only when the
short-circuit evaluation gets to them (`x > 0` and `y > 0`). -/
def tieAccesses (s : State) : List Access :=
  if 0 < s.x ∧ 0 < s.y then [Access.tableAt (s.x - 1) s.y, Access.tableAt s.x (s.y - 1)]
  else []

/-- Lines 181-217: every indexed access one iteration of the loop makes, in
order, along the branch it takes. -/
def stepAccesses (left right : List Char) (lcs : Table) (s : State) : List Access :=
  [Access.leftRead (max s.x 0), Access.rightRead (max s.y 0),
      Access.tableAt (max s.x 0) (max s.y 0)] ++
    (if 0 ≤ s.x ∧ 0 ≤ s.y then [Access.leftRead s.x, Access.rightRead s.y] else []) ++
    (if copyCond left right s = some true then copyAccesses s
     else
      tieAccesses s ++
        (if insertCond lcs s = some true then insertAccesses s
         else
          tieAccesses s ++
            (if deleteCond lcs s = some true then deleteAccesses s else [])))

/-! ## Subsequences and the LCS length -/

theorem sublist_concat_iff (s l : List Char) (a : Char) :
    s.Sublist (l ++ [a]) ↔ s.Sublist l ∨ ∃ t, s = t ++ [a] ∧ t.Sublist l := by
  rw [← List.reverse_sublist, List.reverse_append, List.reverse_singleton,
    List.singleton_append, List.sublist_cons_iff]
  constructor
  · rintro (h | ⟨r, hr, h⟩)
    · exact Or.inl (List.reverse_sublist.mp h)
    · refine Or.inr ⟨r.reverse, ?_, ?_⟩
      · have h1 := congrArg List.reverse hr
        simpa using h1
      · rw [← List.reverse_sublist]
        simpa using h
  · rintro (h | ⟨t, rfl, h⟩)
    · exact Or.inl (List.reverse_sublist.mpr h)
    · exact Or.inr ⟨t.reverse, by simp, List.reverse_sublist.mpr h⟩

theorem isLcsLength_nil_left (r : List Char) : IsLcsLength [] r 0 := by
  refine ⟨⟨[], List.Sublist.refl _, List.nil_sublist _, rfl⟩, ?_⟩
  intro s hl _
  rw [List.sublist_nil.mp hl]
  simp

theorem isLcsLength_nil_right (l : List Char) : IsLcsLength l [] 0 := by
  refine ⟨⟨[], List.nil_sublist _, List.Sublist.refl _, rfl⟩, ?_⟩
  intro s _ hr
  rw [List.sublist_nil.mp hr]
  simp

theorem isLcsLength_unique {l r : List Char} {k1 k2 : Int}
    (h1 : IsLcsLength l r k1) (h2 : IsLcsLength l r k2) : k1 = k2 := by
  obtain ⟨⟨s1, a1, b1, e1⟩, u1⟩ := h1
  obtain ⟨⟨s2, a2, b2, e2⟩, u2⟩ := h2
  have := u1 s2 a2 b2
  have := u2 s1 a1 b1
  omega

theorem isLcsLength_snoc_eq {l r : List Char} {k : Int} (a : Char)
    (h : IsLcsLength l r k) : IsLcsLength (l ++ [a]) (r ++ [a]) (k + 1) := by
  obtain ⟨⟨s, hl, hr, hk⟩, hmax⟩ := h
  refine ⟨⟨s ++ [a], hl.append (List.Sublist.refl _), hr.append (List.Sublist.refl _), ?_⟩, ?_⟩
  · simp [hk]
  · intro u ul ur
    rcases (sublist_concat_iff u l a).mp ul with h1 | ⟨t, rfl, ht⟩
    · rcases (sublist_concat_iff u r a).mp ur with h2 | ⟨t2, rfl, ht2⟩
      · have := hmax u h1 h2
        omega
      · have := hmax t2 ((List.sublist_append_left t2 [a]).trans h1) ht2
        simp only [List.length_append, List.length_singleton, Nat.cast_add, Nat.cast_one]
        omega
    · rcases (sublist_concat_iff (t ++ [a]) r a).mp ur with h2 | ⟨t2, e2, ht2⟩
      · have := hmax t ht ((List.sublist_append_left t [a]).trans h2)
        simp only [List.length_append, List.length_singleton, Nat.cast_add, Nat.cast_one]
        omega
      · have e3 : t = t2 := List.append_inj_left' e2 rfl
        subst e3
        have := hmax t ht ht2
        simp only [List.length_append, List.length_singleton, Nat.cast_add, Nat.cast_one]
        omega

theorem isLcsLength_snoc_ne {l r : List Char} {k1 k2 : Int} {a b : Char} (hab : a ≠ b)
    (h1 : IsLcsLength l (r ++ [b]) k1) (h2 : IsLcsLength (l ++ [a]) r k2) :
    IsLcsLength (l ++ [a]) (r ++ [b]) (max k1 k2) := by
  obtain ⟨⟨s1, hl1, hr1, hk1⟩, hmax1⟩ := h1
  obtain ⟨⟨s2, hl2, hr2, hk2⟩, hmax2⟩ := h2
  refine ⟨?_, ?_⟩
  · rcases le_total k1 k2 with hle | hle
    · refine ⟨s2, hl2, hr2.trans (List.sublist_append_left r [b]), ?_⟩
      rw [max_eq_right hle]
      exact hk2
    · refine ⟨s1, hl1.trans (List.sublist_append_left l [a]), hr1, ?_⟩
      rw [max_eq_left hle]
      exact hk1
  · intro u ul ur
    rcases (sublist_concat_iff u l a).mp ul with h3 | ⟨t, rfl, ht⟩
    · exact le_trans (hmax1 u h3 ur) (le_max_left _ _)
    · rcases (sublist_concat_iff (t ++ [a]) r b).mp ur with h4 | ⟨t2, e2, _⟩
      · exact le_trans (hmax2 _ ul h4) (le_max_right _ _)
      · exfalso
        have e3 : [a] = [b] := List.append_inj_right' e2 rfl
        exact hab (by simpa using e3)

/-! ## The forward pass -/

theorem dims_setCell {t : Table} {n m : Nat} (h : Dims t n m) (i j : Nat) (v : Int) :
    Dims (setCell t i j v) n m := by
  by_cases hi : i < t.length
  · obtain ⟨hn, hm⟩ := h
    refine ⟨by simp [setCell, hn], ?_⟩
    intro row hrow
    rcases List.mem_or_eq_of_mem_set hrow with h1 | h1
    · exact hm row h1
    · subst h1
      rw [List.length_set, List.getD_eq_getElem?_getD, List.getElem?_eq_getElem hi]
      exact hm _ (List.getElem_mem hi)
  · rw [setCell, List.set_eq_of_length_le (by omega)]
    exact h

theorem dims_row {t : Table} {n m : Nat} (h : Dims t n m) {i : Nat} (hi : i < n) :
    ∃ row, t[i]? = some row ∧ row.length = m := by
  obtain ⟨hn, hm⟩ := h
  have hi2 : i < t.length := by omega
  exact ⟨t[i], List.getElem?_eq_getElem hi2, hm _ (List.getElem_mem hi2)⟩

theorem cell_setCell_same {t : Table} {n m : Nat} (h : Dims t n m) {i j : Nat}
    (hi : i < n) (hj : j < m) (v : Int) : cell (setCell t i j v) i j = v := by
  obtain ⟨row, hrow, hlen⟩ := dims_row h hi
  have hi2 : i < t.length := by rw [h.1]; exact hi
  simp [cell, setCell, List.getElem?_set, hi2, hrow, hlen, hj]

theorem cell_setCell_other (t : Table) {i j a b : Nat} (hne : ¬ (a = i ∧ b = j)) (v : Int) :
    cell (setCell t i j v) a b = cell t a b := by
  by_cases ha : a = i
  · subst ha
    have hb : ¬ b = j := fun hb => hne ⟨rfl, hb⟩
    have hb2 : ¬ j = b := fun hb3 => hb hb3.symm
    by_cases hi : a < t.length
    · simp [cell, setCell, List.getElem?_set, hi, hb2]
    · have hnone : t[a]? = none := List.getElem?_eq_none (by omega)
      simp [cell, setCell, List.getElem?_set, hi, hnone]
  · have ha2 : ¬ i = a := fun h => ha h.symm
    simp [cell, setCell, List.getElem?_set, ha2]

theorem take_succ_sym (l : List Char) {i : Nat} (h : i < l.length) :
    l.take (i + 1) = l.take i ++ [sym l i] := by
  rw [List.take_succ]
  simp [sym, List.getElem?_eq_getElem h]

theorem dims_fillCell {left right : List Char} {t : Table} {n m : Nat} (h : Dims t n m)
    (i j : Nat) : Dims (fillCell left right t i j) n m := by
  unfold fillCell
  split
  · exact dims_setCell h i j _
  · exact dims_setCell h i j _

theorem cell_fillCell_other (left right : List Char) (t : Table) {i j a b : Nat}
    (hne : ¬ (a = i ∧ b = j)) : cell (fillCell left right t i j) a b = cell t a b := by
  unfold fillCell
  split
  · exact cell_setCell_other t hne _
  · exact cell_setCell_other t hne _

/-- One write of the forward pass keeps the invariant. -/
theorem fwdInv_fillCell {left right : List Char} {t : Table} {i j : Nat}
    (hi0 : 1 ≤ i) (hi : i < left.length) (hj0 : 1 ≤ j) (hj : j < right.length)
    (h : FwdInv left right t i j) : FwdInv left right (fillCell left right t i j) i (j + 1) := by
  obtain ⟨hd, hc⟩ := h
  refine ⟨dims_fillCell hd i j, ?_⟩
  intro a b ha hb hs
  by_cases hab : a = i ∧ b = j
  · obtain ⟨rfl, rfl⟩ := hab
    obtain ⟨i1, rfl⟩ : ∃ i1, a = i1 + 1 := ⟨a - 1, by omega⟩
    obtain ⟨j1, rfl⟩ : ∃ j1, b = j1 + 1 := ⟨b - 1, by omega⟩
    rw [take_succ_sym left (by omega : i1 < left.length),
      take_succ_sym right (by omega : j1 < right.length)]
    have hdiag := hc i1 j1 (by omega) (by omega) (Or.inl (by omega))
    have hup := hc i1 (j1 + 1) (by omega) hb (Or.inl (by omega))
    have hleft := hc (i1 + 1) j1 ha (by omega) (Or.inr (Or.inl ⟨rfl, by omega⟩))
    rw [take_succ_sym right (by omega : j1 < right.length)] at hup
    rw [take_succ_sym left (by omega : i1 < left.length)] at hleft
    unfold fillCell
    simp only [Nat.add_sub_cancel]
    split
    · rename_i heq
      rw [cell_setCell_same hd ha hb, ← heq]
      exact isLcsLength_snoc_eq _ hdiag
    · rename_i hne
      rw [cell_setCell_same hd ha hb]
      exact isLcsLength_snoc_ne hne hup hleft
  · rw [cell_fillCell_other left right t hab]
    apply hc a b ha hb
    unfold Settled at hs ⊢
    omega

/-- The inner loop settles row `i` up to the column it has reached. -/
theorem fwdInv_fillRow_upto {left right : List Char} {i : Nat}
    (hi0 : 1 ≤ i) (hi : i < left.length) (k : Nat) :
    ∀ t : Table, k ≤ right.length - 1 → FwdInv left right t i 1 →
      FwdInv left right
        ((List.range' 1 k).foldl (fun t j => fillCell left right t i j) t) i (1 + k) := by
  induction k with
  | zero => intro t _ h; simpa using h
  | succ k ih =>
    intro t hk h
    rw [List.range'_concat, List.foldl_append]
    simp only [List.foldl_cons, List.foldl_nil, Nat.one_mul]
    have h1 := ih t (by omega) h
    have h2 := fwdInv_fillCell hi0 hi (by omega : 1 ≤ 1 + k) (by omega) h1
    have e : 1 + (k + 1) = 1 + k + 1 := by omega
    rw [e]
    exact h2

/-- The inner loop takes the invariant from the start of row `i` to the start of row `i + 1`. -/
theorem fwdInv_fillRow {left right : List Char} {t : Table} {i : Nat}
    (hi0 : 1 ≤ i) (hi : i < left.length) (h : FwdInv left right t i 1) :
    FwdInv left right (fillRow left right t i) (i + 1) 1 := by
  have h1 := fwdInv_fillRow_upto hi0 hi (right.length - 1) t (le_refl _) h
  obtain ⟨hd, hc⟩ := h1
  refine ⟨hd, ?_⟩
  intro a b ha hb hs
  apply hc a b ha hb
  unfold Settled at hs ⊢
  omega

theorem fwdInv_forwardPass_upto {left right : List Char} (k : Nat) :
    ∀ t : Table, k ≤ left.length - 1 → FwdInv left right t 1 1 →
      FwdInv left right
        ((List.range' 1 k).foldl (fun t i => fillRow left right t i) t) (1 + k) 1 := by
  induction k with
  | zero => intro t _ h; simpa using h
  | succ k ih =>
    intro t hk h
    rw [List.range'_concat, List.foldl_append]
    simp only [List.foldl_cons, List.foldl_nil, Nat.one_mul]
    have h1 := ih t (by omega) h
    have h2 := fwdInv_fillRow (by omega : 1 ≤ 1 + k) (by omega) h1
    have e : 1 + (k + 1) = 1 + k + 1 := by omega
    rw [e]
    exact h2

theorem dims_allocTable (left right : List Char) :
    Dims (allocTable left right) left.length right.length := by
  refine ⟨by simp [allocTable], ?_⟩
  intro row hrow
  rw [allocTable] at hrow
  rw [List.eq_of_mem_replicate hrow]
  simp

theorem cell_allocTable (left right : List Char) (a b : Nat) :
    cell (allocTable left right) a b = 0 := by
  unfold cell allocTable
  by_cases ha : a < left.length
  · by_cases hb : b < right.length
    · simp [List.getElem?_replicate, ha, hb]
    · simp [List.getElem?_replicate, ha, hb]
  · simp [List.getElem?_replicate, ha]

theorem fwdInv_allocTable (left right : List Char) :
    FwdInv left right (allocTable left right) 1 1 := by
  refine ⟨dims_allocTable left right, ?_⟩
  intro a b _ _ hs
  rw [cell_allocTable]
  unfold Settled at hs
  have h0 : a = 0 ∨ b = 0 := by omega
  rcases h0 with rfl | rfl
  · simpa using isLcsLength_nil_left (right.take b)
  · simpa using isLcsLength_nil_right (left.take a)

theorem dims_buildTable (left right : List Char) :
    Dims (buildTable left right) left.length right.length :=
  (fwdInv_forwardPass_upto (left.length - 1) _ (le_refl _) (fwdInv_allocTable left right)).1

/-- Every cell of the built table is the LCS length of the prefixes it stands for. -/
theorem buildTable_cell (left right : List Char) {i j : Nat}
    (hi : i < left.length) (hj : j < right.length) :
    IsLcsLength (left.take i) (right.take j) (cell (buildTable left right) i j) := by
  have h := fwdInv_forwardPass_upto (left.length - 1) _ (le_refl _)
    (fwdInv_allocTable left right)
  exact h.2 i j hi hj (Or.inl (by omega))

/-! ## One iteration of the backtrace loop -/

theorem copyStep_spec {left right : List Char} {s s1 : State}
    (h : copyStep left right s = some s1) :
    s1.x = s.x - 1 ∧ s1.y = s.y - 1 ∧
      ∃ c, strAt (if s.y > s.x then right else left) (max s.x s.y) = some c ∧
        strSet s.output (max s.x s.y) c = some s1.output := by
  unfold copyStep at h
  split at h
  · rename_i hxy
    simp only [Option.bind_eq_some] at h
    obtain ⟨c, hc, out, hout, hs⟩ := h
    cases hs
    rw [max_eq_right (le_of_lt hxy), if_pos hxy]
    exact ⟨rfl, rfl, c, hc, hout⟩
  · rename_i hxy
    simp only [Option.bind_eq_some] at h
    obtain ⟨c, hc, out, hout, hs⟩ := h
    cases hs
    rw [max_eq_left (not_lt.mp hxy), if_neg hxy]
    exact ⟨rfl, rfl, c, hc, hout⟩

theorem insertStep_spec {s s1 : State} (h : insertStep s = some s1) :
    s1.x = s.x ∧ s1.y = s.y - 1 ∧
      ∃ out, strSet s.output s.y '+' = some out ∧
        (s1.output = out ∨ (s.y = 1 ∧ strSet out 0 '+' = some s1.output)) := by
  unfold insertStep at h
  simp only [Option.bind_eq_some] at h
  obtain ⟨out, hout, h2⟩ := h
  split at h2
  · rename_i hy
    simp only [Option.bind_eq_some] at h2
    obtain ⟨out0, hout0, hs⟩ := h2
    cases hs
    exact ⟨rfl, rfl, out, hout, Or.inr ⟨by omega, hout0⟩⟩
  · cases h2
    exact ⟨rfl, rfl, out, hout, Or.inl rfl⟩

theorem deleteStep_spec {s s1 : State} (h : deleteStep s = some s1) :
    s1.x = s.x - 1 ∧ s1.y = s.y ∧
      ∃ out, strSet s.output s.x '-' = some out ∧
        (s1.output = out ∨ (s.x = 1 ∧ strSet out 0 '-' = some s1.output)) := by
  unfold deleteStep at h
  simp only [Option.bind_eq_some] at h
  obtain ⟨out, hout, h2⟩ := h
  split at h2
  · rename_i hy
    simp only [Option.bind_eq_some] at h2
    obtain ⟨out0, hout0, hs⟩ := h2
    cases hs
    exact ⟨rfl, rfl, out, hout, Or.inr ⟨by omega, hout0⟩⟩
  · cases h2
    exact ⟨rfl, rfl, out, hout, Or.inl rfl⟩

/-- What an iteration that starts with the loop condition true has done, by the branch taken. -/
theorem step_spec {left right : List Char} {lcs : Table} {s s1 : State} {r : Rule}
    (hc : 0 < s.x ∨ 0 < s.y) (h : step left right lcs s = some (r, s1)) :
    (r = Rule.copy ∧ 0 ≤ s.x ∧ 0 ≤ s.y ∧ copyCond left right s = some true ∧
        copyStep left right s = some s1) ∨
    (r = Rule.insert ∧ 0 < s.y ∧ copyCond left right s = some false ∧
        insertCond lcs s = some true ∧ insertStep s = some s1) ∨
    (r = Rule.delete ∧ 0 < s.x ∧ copyCond left right s = some false ∧
        insertCond lcs s = some false ∧ deleteCond lcs s = some true ∧
        deleteStep s = some s1) := by
  unfold step at h
  simp only [Option.bind_eq_some] at h
  obtain ⟨_, _, _, _, _, _, c, hcc, h⟩ := h
  cases c with
  | true =>
    simp only [if_true, Option.map_eq_some', Prod.mk.injEq] at h
    obtain ⟨s2, hs2, rfl, rfl⟩ := h
    refine Or.inl ⟨rfl, ?_, ?_, hcc, hs2⟩
    · by_contra hx
      simp [copyCond, hx] at hcc
    · by_contra hy
      simp [copyCond, hy] at hcc
  | false =>
    simp only [Bool.false_eq_true, if_false, Option.bind_eq_some] at h
    obtain ⟨i, hi, h⟩ := h
    cases i with
    | true =>
      simp only [if_true, Option.map_eq_some', Prod.mk.injEq] at h
      obtain ⟨s2, hs2, rfl, rfl⟩ := h
      refine Or.inr (Or.inl ⟨rfl, ?_, hcc, hi, hs2⟩)
      by_contra hy
      simp [insertCond, hy] at hi
    | false =>
      simp only [Bool.false_eq_true, if_false, Option.bind_eq_some] at h
      obtain ⟨d, hd, h⟩ := h
      cases d with
      | true =>
        simp only [if_true, Option.map_eq_some', Prod.mk.injEq] at h
        obtain ⟨s2, hs2, rfl, rfl⟩ := h
        refine Or.inr (Or.inr ⟨rfl, ?_, hcc, hi, hd, hs2⟩)
        by_contra hx
        simp [deleteCond, hx] at hd
      | false =>
        exfalso
        unfold insertCond at hi
        unfold deleteCond at hd
        by_cases hy : 0 < s.y
        · by_cases hx : s.x ≤ 0
          · simp [hy, hx] at hi
          · have hx2 : 0 < s.x := by omega
            have hy2 : ¬ s.y ≤ 0 := by omega
            simp only [hy, hx, hx2, hy2, if_true, if_false, Option.bind_eq_some] at hi hd
            obtain ⟨a, ha, b, hb, hab⟩ := hi
            obtain ⟨a2, ha2, b2, hb2, hab2⟩ := hd
            rw [ha] at ha2
            rw [hb] at hb2
            cases ha2
            cases hb2
            simp at hab hab2
            omega
        · have hx2 : 0 < s.x := by omega
          have hy2 : s.y ≤ 0 := by omega
          simp [hx2, hy2] at hd

theorem strAt_some (s : List Char) {i : Int} (h0 : 0 ≤ i) (h1 : i ≤ s.length) :
    strAt s i = some (s.getD i.toNat (Char.ofNat 0)) := by
  unfold strAt
  rw [if_pos]
  exact ⟨h0, by omega⟩

theorem strSet_some (s : List Char) {i : Int} (c : Char) (h0 : 0 ≤ i) (h1 : i < s.length) :
    strSet s i c = some (s.set i.toNat c) := by
  unfold strSet
  rw [if_pos]
  exact ⟨h0, by omega⟩

theorem strSet_spec {s out : List Char} {i : Int} {c : Char} (h : strSet s i c = some out) :
    0 ≤ i ∧ i.toNat < s.length ∧ out = s.set i.toNat c := by
  unfold strSet at h
  split at h
  · rename_i hi
    cases h
    exact ⟨hi.1, hi.2, rfl⟩
  · cases h

theorem strSet_length {s out : List Char} {i : Int} {c : Char} (h : strSet s i c = some out) :
    out.length = s.length := by
  rw [(strSet_spec h).2.2, List.length_set]

theorem readCell_some {t : Table} {n m : Nat} (hd : Dims t n m) {i j : Int}
    (hi0 : 0 ≤ i) (hi : i < n) (hj0 : 0 ≤ j) (hj : j < m) :
    ∃ v, readCell t i j = some v := by
  obtain ⟨row, hrow, hlen⟩ := dims_row hd (by omega : i.toNat < n)
  have hj2 : j.toNat < row.length := by omega
  refine ⟨row[j.toNat], ?_⟩
  unfold readCell
  rw [if_pos ⟨hi0, hj0⟩, hrow]
  simp [List.getElem?_eq_getElem hj2]

theorem copyCond_some {left right : List Char} {s : State}
    (hx : s.x < left.length) (hy : s.y < right.length) :
    ∃ b, copyCond left right s = some b := by
  unfold copyCond
  split
  · rename_i h
    rw [strAt_some left h.1 (by omega), strAt_some right h.2 (by omega)]
    exact ⟨_, rfl⟩
  · exact ⟨_, rfl⟩

theorem insertCond_some {lcs : Table} {n m : Nat} (hd : Dims lcs n m) {s : State}
    (hx : s.x < n) (hy : s.y < m) : ∃ b, insertCond lcs s = some b := by
  unfold insertCond
  split
  · split
    · exact ⟨_, rfl⟩
    · obtain ⟨a, ha⟩ := readCell_some hd (by omega : 0 ≤ s.x - 1) (by omega) (by omega : 0 ≤ s.y) hy
      obtain ⟨b, hb⟩ := readCell_some hd (by omega : 0 ≤ s.x) hx (by omega : 0 ≤ s.y - 1) (by omega)
      rw [ha, hb]
      exact ⟨_, rfl⟩
  · exact ⟨_, rfl⟩

theorem deleteCond_some {lcs : Table} {n m : Nat} (hd : Dims lcs n m) {s : State}
    (hx : s.x < n) (hy : s.y < m) : ∃ b, deleteCond lcs s = some b := by
  unfold deleteCond
  split
  · split
    · exact ⟨_, rfl⟩
    · obtain ⟨a, ha⟩ := readCell_some hd (by omega : 0 ≤ s.x - 1) (by omega) (by omega : 0 ≤ s.y) hy
      obtain ⟨b, hb⟩ := readCell_some hd (by omega : 0 ≤ s.x) hx (by omega : 0 ≤ s.y - 1) (by omega)
      rw [ha, hb]
      exact ⟨_, rfl⟩
  · exact ⟨_, rfl⟩

theorem copyStep_some {left right : List Char} {s : State} (hx0 : 0 ≤ s.x) (hy0 : 0 ≤ s.y)
    (hx : s.x < left.length) (hy : s.y < right.length)
    (hout : s.output.length = max left.length right.length) :
    ∃ s1, copyStep left right s = some s1 := by
  unfold copyStep
  split
  · rw [strAt_some right hy0 (by omega)]
    simp only [Option.some_bind]
    rw [strSet_some _ _ hy0 (by rw [hout]; omega)]
    exact ⟨_, rfl⟩
  · rw [strAt_some left hx0 (by omega)]
    simp only [Option.some_bind]
    rw [strSet_some _ _ hx0 (by rw [hout]; omega)]
    exact ⟨_, rfl⟩

theorem insertStep_some {s : State} (hy0 : 0 < s.y) (hy : s.y < s.output.length) :
    ∃ s1, insertStep s = some s1 := by
  unfold insertStep
  rw [strSet_some _ _ (by omega) hy]
  simp only [Option.some_bind]
  split
  · rw [strSet_some _ _ (le_refl _) (by rw [List.length_set]; omega)]
    exact ⟨_, rfl⟩
  · exact ⟨_, rfl⟩

theorem deleteStep_some {s : State} (hx0 : 0 < s.x) (hx : s.x < s.output.length) :
    ∃ s1, deleteStep s = some s1 := by
  unfold deleteStep
  rw [strSet_some _ _ (by omega) hx]
  simp only [Option.some_bind]
  split
  · rw [strSet_some _ _ (le_refl _) (by rw [List.length_set]; omega)]
    exact ⟨_, rfl⟩
  · exact ⟨_, rfl⟩

/-- With the cursor and buffer in range, an iteration performs no out-of-range access. -/
theorem step_some {left right : List Char} {lcs : Table} {s : State}
    (hb : InBounds left right lcs s) :
    ∃ r s1, step left right lcs s = some (r, s1) := by
  obtain ⟨hn, hm, hd, hx, hy, hout⟩ := hb
  unfold step
  rw [strAt_some left (le_max_right _ _) (by omega), strAt_some right (le_max_right _ _) (by omega)]
  obtain ⟨v, hv⟩ := readCell_some hd (le_max_right s.x 0) (by omega) (le_max_right s.y 0) (by omega)
  rw [hv]
  simp only [Option.some_bind]
  obtain ⟨c, hcc⟩ := copyCond_some hx hy
  rw [hcc]
  simp only [Option.some_bind]
  cases c with
  | true =>
    have h0 : 0 ≤ s.x ∧ 0 ≤ s.y := by
      by_contra hneg
      simp [copyCond, hneg] at hcc
    obtain ⟨s1, hs1⟩ := copyStep_some h0.1 h0.2 hx hy hout
    rw [hs1]
    exact ⟨_, _, rfl⟩
  | false =>
    obtain ⟨i, hi⟩ := insertCond_some hd hx hy
    rw [hi]
    simp only [Option.some_bind, Bool.false_eq_true, if_false]
    cases i with
    | true =>
      have h0 : 0 < s.y := by
        by_contra hneg
        simp [insertCond, hneg] at hi
      obtain ⟨s1, hs1⟩ := insertStep_some h0 (by rw [hout]; omega)
      rw [hs1]
      exact ⟨_, _, rfl⟩
    | false =>
      obtain ⟨d, hdd⟩ := deleteCond_some hd hx hy
      rw [hdd]
      simp only [Option.some_bind, Bool.false_eq_true, if_false]
      cases d with
      | true =>
        have h0 : 0 < s.x := by
          by_contra hneg
          simp [deleteCond, hneg] at hdd
        obtain ⟨s1, hs1⟩ := deleteStep_some h0 (by rw [hout]; omega)
        rw [hs1]
        exact ⟨_, _, rfl⟩
      | false => exact ⟨_, _, rfl⟩

/-- The facts about the cursor that every taken branch shares. -/
theorem step_cursor {left right : List Char} {lcs : Table} {s s1 : State} {r : Rule}
    (hc : 0 < s.x ∨ 0 < s.y) (h : step left right lcs s = some (r, s1)) :
    r ≠ Rule.stay ∧ s1.x ≤ s.x ∧ s1.y ≤ s.y ∧ s.x - 1 ≤ s1.x ∧ s.y - 1 ≤ s1.y ∧
      s1.x + s1.y = s.x + s.y - r.weight ∧ cursorMeasure s1 < cursorMeasure s ∧
      (0 ≤ s1.x ∨ 0 ≤ s1.y) ∧ s1.output.length = s.output.length := by
  rcases step_spec hc h with ⟨rfl, hx, hy, _, hs⟩ | ⟨rfl, hy, _, _, hs⟩ | ⟨rfl, hx, _, _, _, hs⟩
  · obtain ⟨e1, e2, c, _, hset⟩ := copyStep_spec hs
    have := strSet_length hset
    refine ⟨by decide, ?_, ?_, ?_, ?_, ?_, ?_, ?_, this⟩
    all_goals try simp only [Rule.weight, cursorMeasure]
    all_goals omega
  · obtain ⟨e1, e2, out, hset, hout⟩ := insertStep_spec hs
    have h1 := strSet_length hset
    have h2 : s1.output.length = s.output.length := by
      rcases hout with h3 | ⟨_, h3⟩
      · rw [h3, h1]
      · rw [strSet_length h3, h1]
    refine ⟨by decide, ?_, ?_, ?_, ?_, ?_, ?_, ?_, h2⟩
    all_goals try simp only [Rule.weight, cursorMeasure]
    all_goals omega
  · obtain ⟨e1, e2, out, hset, hout⟩ := deleteStep_spec hs
    have h1 := strSet_length hset
    have h2 : s1.output.length = s.output.length := by
      rcases hout with h3 | ⟨_, h3⟩
      · rw [h3, h1]
      · rw [strSet_length h3, h1]
    refine ⟨by decide, ?_, ?_, ?_, ?_, ?_, ?_, ?_, h2⟩
    all_goals try simp only [Rule.weight, cursorMeasure]
    all_goals omega

theorem inBounds_step {left right : List Char} {lcs : Table} {s s1 : State} {r : Rule}
    (hb : InBounds left right lcs s) (hc : 0 < s.x ∨ 0 < s.y)
    (h : step left right lcs s = some (r, s1)) : InBounds left right lcs s1 := by
  obtain ⟨hn, hm, hd, hx, hy, hout⟩ := hb
  obtain ⟨_, h1, h2, _, _, _, _, _, h3⟩ := step_cursor hc h
  exact ⟨hn, hm, hd, by omega, by omega, by rw [h3, hout]⟩

/-! ## The backtrace loop -/

theorem cursorMeasure_eq_zero {s : State} (h : ¬ (0 < s.x ∨ 0 < s.y)) : cursorMeasure s = 0 := by
  unfold cursorMeasure
  omega

theorem loop_zero_done {left right : List Char} {lcs : Table} {fuel : Nat} {s : State}
    (h : ¬ (0 < s.x ∨ 0 < s.y)) : loop left right lcs fuel s = Outcome.done s [] := by
  cases fuel with
  | zero => simp only [loop, if_neg h]
  | succ k => simp only [loop, if_neg h]

theorem loop_succ_step {left right : List Char} {lcs : Table} {fuel : Nat} {s s1 : State}
    {r : Rule} (hc : 0 < s.x ∨ 0 < s.y) (h : step left right lcs s = some (r, s1)) :
    loop left right lcs (fuel + 1) s = (loop left right lcs fuel s1).push (r, s) := by
  simp only [loop, if_pos hc, h]

theorem loop_succ_fault {left right : List Char} {lcs : Table} {fuel : Nat} {s : State}
    (hc : 0 < s.x ∨ 0 < s.y) (h : step left right lcs s = none) :
    loop left right lcs (fuel + 1) s = Outcome.fault s [] := by
  simp only [loop, if_pos hc, h]

/-- Induction along a run: an invariant `P` of the states that makes every
iteration succeed, and a property `Q` of the single iterations. -/
theorem loop_induct {left right : List Char} {lcs : Table} (P : State → Prop)
    (Q : Rule → State → State → Prop)
    (hstep : ∀ s, P s → (0 < s.x ∨ 0 < s.y) →
      ∃ r s1, step left right lcs s = some (r, s1) ∧ P s1 ∧ Q r s s1) :
    ∀ fuel s, P s → cursorMeasure s ≤ fuel →
      ∃ f h, loop left right lcs fuel s = Outcome.done f h ∧ P f ∧ ¬ (0 < f.x ∨ 0 < f.y) ∧
        h.length ≤ cursorMeasure s ∧
        ∀ e ∈ h, P e.2 ∧ (0 < e.2.x ∨ 0 < e.2.y) ∧
          ∃ s1, step left right lcs e.2 = some (e.1, s1) ∧ Q e.1 e.2 s1 := by
  intro fuel
  induction fuel with
  | zero =>
    intro s hP hm
    have hc : ¬ (0 < s.x ∨ 0 < s.y) := by
      unfold cursorMeasure at hm
      omega
    exact ⟨s, [], loop_zero_done hc, hP, hc, by simp, by simp⟩
  | succ k ih =>
    intro s hP hm
    by_cases hc : 0 < s.x ∨ 0 < s.y
    · obtain ⟨r, s1, hs, hP1, hQ⟩ := hstep s hP hc
      have hlt := (step_cursor hc hs).2.2.2.2.2.2.1
      obtain ⟨f, h, hl, hPf, hcf, hlen, hall⟩ := ih s1 hP1 (by omega)
      refine ⟨f, (r, s) :: h, ?_, hPf, hcf, ?_, ?_⟩
      · rw [loop_succ_step hc hs, hl]
        rfl
      · simp only [List.length_cons]
        omega
      · intro e he
        rcases List.mem_cons.mp he with rfl | he2
        · exact ⟨hP, hc, s1, hs, hQ⟩
        · exact hall e he2
    · exact ⟨s, [], loop_zero_done hc, hP, hc, by simp, by simp⟩

/-- More fuel does not change the result of a run that ended. -/
theorem loop_fuel_mono {left right : List Char} {lcs : Table} :
    ∀ (fuel : Nat) (s f : State) (h : List (Rule × State)),
      loop left right lcs fuel s = Outcome.done f h →
      ∀ k, loop left right lcs (fuel + k) s = Outcome.done f h := by
  intro fuel
  induction fuel with
  | zero =>
    intro s f h hl k
    by_cases hc : 0 < s.x ∨ 0 < s.y
    · simp [loop, hc] at hl
    · rw [loop_zero_done hc] at hl ⊢
      exact hl
  | succ n ih =>
    intro s f h hl k
    by_cases hc : 0 < s.x ∨ 0 < s.y
    · have e : n + 1 + k = (n + k) + 1 := by omega
      rw [e]
      cases hs : step left right lcs s with
      | none =>
        rw [loop_succ_fault hc hs] at hl
        cases hl
      | some p =>
        obtain ⟨r, s1⟩ := p
        rw [loop_succ_step hc hs] at hl ⊢
        cases ho : loop left right lcs n s1 with
        | done f1 h1 =>
          rw [ih s1 f1 h1 ho k]
          rw [ho] at hl
          exact hl
        | fault f1 h1 =>
          rw [ho] at hl
          cases hl
        | outOfFuel =>
          rw [ho] at hl
          cases hl
    · rw [loop_zero_done hc] at hl ⊢
      exact hl

theorem loop_fuel_ge {left right : List Char} {lcs : Table} {fuel fuel2 : Nat} {s f : State}
    {h : List (Rule × State)} (hl : loop left right lcs fuel s = Outcome.done f h)
    (hge : fuel ≤ fuel2) : loop left right lcs fuel2 s = Outcome.done f h := by
  have := loop_fuel_mono fuel s f h hl (fuel2 - fuel)
  rwa [Nat.add_sub_cancel' hge] at this

/-- The sum of the weights of the applied rules is what the cursor sum `x + y` lost. -/
theorem loop_weight_sum {left right : List Char} {lcs : Table} :
    ∀ (fuel : Nat) (s f : State) (h : List (Rule × State)),
      loop left right lcs fuel s = Outcome.done f h →
      (h.map (fun e => e.1.weight)).sum = s.x + s.y - (f.x + f.y) := by
  intro fuel
  induction fuel with
  | zero =>
    intro s f h hl
    by_cases hc : 0 < s.x ∨ 0 < s.y
    · simp [loop, hc] at hl
    · rw [loop_zero_done hc] at hl
      cases hl
      simp
  | succ n ih =>
    intro s f h hl
    by_cases hc : 0 < s.x ∨ 0 < s.y
    · cases hs : step left right lcs s with
      | none =>
        rw [loop_succ_fault hc hs] at hl
        cases hl
      | some p =>
        obtain ⟨r, s1⟩ := p
        rw [loop_succ_step hc hs] at hl
        cases ho : loop left right lcs n s1 with
        | done f1 h1 =>
          rw [ho] at hl
          simp only [Outcome.push, Outcome.done.injEq] at hl
          obtain ⟨rfl, rfl⟩ := hl
          have h1s := ih s1 f1 h1 ho
          have h2 := (step_cursor hc hs).2.2.2.2.2.1
          simp only [List.map_cons, List.sum_cons, h1s]
          omega
        | fault f1 h1 =>
          rw [ho] at hl
          cases hl
        | outOfFuel =>
          rw [ho] at hl
          cases hl
    · rw [loop_zero_done hc] at hl
      cases hl
      simp

theorem weight_sum_count (rs : List Rule) :
    (rs.map Rule.weight).sum =
      2 * (rs.count Rule.copy : Int) + rs.count Rule.insert + rs.count Rule.delete := by
  induction rs with
  | nil => simp
  | cons r t ih =>
    cases r <;> simp [List.count_cons, Rule.weight, ih] <;> omega

theorem push_visited (e : Rule × State) (o : Outcome) (h : o ≠ Outcome.outOfFuel) :
    (o.push e).visited = e.2 :: o.visited := by
  cases o with
  | done f hist => simp [Outcome.push, Outcome.visited]
  | fault f hist => simp [Outcome.push, Outcome.visited]
  | outOfFuel => exact absurd rfl h

theorem push_ne_outOfFuel (e : Rule × State) (o : Outcome) (h : o ≠ Outcome.outOfFuel) :
    o.push e ≠ Outcome.outOfFuel := by
  cases o with
  | done f hist => simp [Outcome.push]
  | fault f hist => simp [Outcome.push]
  | outOfFuel => exact absurd rfl h

/-- A run with fuel for its measure never stops for lack of fuel. -/
theorem loop_ne_outOfFuel {left right : List Char} {lcs : Table} :
    ∀ (fuel : Nat) (s : State), cursorMeasure s ≤ fuel →
      loop left right lcs fuel s ≠ Outcome.outOfFuel := by
  intro fuel
  induction fuel with
  | zero =>
    intro s hm
    have hc : ¬ (0 < s.x ∨ 0 < s.y) := by
      unfold cursorMeasure at hm
      omega
    rw [loop_zero_done hc]
    simp
  | succ n ih =>
    intro s hm
    by_cases hc : 0 < s.x ∨ 0 < s.y
    · cases hs : step left right lcs s with
      | none =>
        rw [loop_succ_fault hc hs]
        simp
      | some p =>
        obtain ⟨r, s1⟩ := p
        rw [loop_succ_step hc hs]
        have hlt := (step_cursor hc hs).2.2.2.2.2.2.1
        exact push_ne_outOfFuel _ _ (ih s1 (by omega))
    · rw [loop_zero_done hc]
      simp

/-- A property of the states that every iteration keeps holds of every state a run goes through. -/
theorem loop_visited_inv {left right : List Char} {lcs : Table} (P : State → Prop)
    (hP : ∀ s r s1, P s → (0 < s.x ∨ 0 < s.y) → step left right lcs s = some (r, s1) → P s1) :
    ∀ (fuel : Nat) (s : State), P s → ∀ c ∈ (loop left right lcs fuel s).visited, P c := by
  intro fuel
  induction fuel with
  | zero =>
    intro s hs c hc
    by_cases hcond : 0 < s.x ∨ 0 < s.y
    · simp [loop, hcond, Outcome.visited] at hc
    · rw [loop_zero_done hcond] at hc
      simp only [Outcome.visited, List.map_nil, List.nil_append, List.mem_singleton] at hc
      rw [hc]
      exact hs
  | succ n ih =>
    intro s hs c hc
    by_cases hcond : 0 < s.x ∨ 0 < s.y
    · cases hst : step left right lcs s with
      | none =>
        rw [loop_succ_fault hcond hst] at hc
        simp only [Outcome.visited, List.map_nil, List.nil_append, List.mem_singleton] at hc
        rw [hc]
        exact hs
      | some p =>
        obtain ⟨r, s1⟩ := p
        rw [loop_succ_step hcond hst] at hc
        by_cases ho : loop left right lcs n s1 = Outcome.outOfFuel
        · rw [ho] at hc
          simp [Outcome.push, Outcome.visited] at hc
        · rw [push_visited _ _ ho] at hc
          rcases List.mem_cons.mp hc with rfl | hc2
          · exact hs
          · exact ih s1 (hP s r s1 hs hcond hst) c hc2
    · rw [loop_zero_done hcond] at hc
      simp only [Outcome.visited, List.map_nil, List.nil_append, List.mem_singleton] at hc
      rw [hc]
      exact hs

/-- Along a run neither coordinate of the cursor ever increases. -/
theorem loop_visited_pairwise {left right : List Char} {lcs : Table} :
    ∀ (fuel : Nat) (s : State),
      List.Pairwise (fun a b : State => b.x ≤ a.x ∧ b.y ≤ a.y)
        (loop left right lcs fuel s).visited := by
  intro fuel
  induction fuel with
  | zero =>
    intro s
    by_cases hcond : 0 < s.x ∨ 0 < s.y
    · simp [loop, hcond, Outcome.visited]
    · rw [loop_zero_done hcond]
      simp [Outcome.visited]
  | succ n ih =>
    intro s
    by_cases hcond : 0 < s.x ∨ 0 < s.y
    · cases hst : step left right lcs s with
      | none =>
        rw [loop_succ_fault hcond hst]
        simp [Outcome.visited]
      | some p =>
        obtain ⟨r, s1⟩ := p
        rw [loop_succ_step hcond hst]
        by_cases ho : loop left right lcs n s1 = Outcome.outOfFuel
        · rw [ho]
          simp [Outcome.push, Outcome.visited]
        · rw [push_visited _ _ ho, List.pairwise_cons]
          refine ⟨?_, ih s1⟩
          have h1 := step_cursor hcond hst
          refine loop_visited_inv (fun c => c.x ≤ s.x ∧ c.y ≤ s.y) ?_ n s1 ⟨h1.2.1, h1.2.2.1⟩
          intro a r2 a1 ha hca hsa
          have h2 := step_cursor hca hsa
          exact ⟨le_trans h2.2.1 ha.1, le_trans h2.2.2.1 ha.2⟩
    · rw [loop_zero_done hcond]
      simp [Outcome.visited]

/-! ## The initial cursor -/

theorem toInt_le (k : Nat) : toInt k ≤ k := by
  unfold toInt
  split <;> omega

theorem sizeMinusOne_le {n : Nat} (h : 1 ≤ n) : sizeMinusOne n ≤ n - 1 := by
  unfold sizeMinusOne
  omega

theorem toInt_sizeMinusOne_lt {n : Nat} (h : 1 ≤ n) : toInt (sizeMinusOne n) < n := by
  have h1 := toInt_le (sizeMinusOne n)
  have h2 := sizeMinusOne_le h
  omega

theorem toInt_sizeMinusOne_of_eq_zero {n : Nat} (h : n = 0) : toInt (sizeMinusOne n) = -1 := by
  unfold toInt sizeMinusOne
  split <;> omega

theorem toInt_sizeMinusOne_zero : toInt (sizeMinusOne 0) = -1 :=
  toInt_sizeMinusOne_of_eq_zero rfl

theorem toInt_sizeMinusOne_eq {n : Nat} (h : n ≤ 2 ^ 31) : toInt (sizeMinusOne n) = (n : Int) - 1 := by
  rcases Nat.eq_zero_or_pos n with rfl | hpos
  · exact toInt_sizeMinusOne_zero
  · unfold toInt sizeMinusOne
    split <;> omega

theorem cursorMeasure_initState (n m : Nat) : cursorMeasure (initState n m) ≤ n + m := by
  unfold cursorMeasure initState
  simp only
  have hx : (toInt (sizeMinusOne n)).toNat ≤ n := by
    rcases Nat.eq_zero_or_pos n with rfl | hpos
    · rw [toInt_sizeMinusOne_zero]; decide
    · have := toInt_sizeMinusOne_lt hpos
      omega
  have hy : (toInt (sizeMinusOne m)).toNat ≤ m := by
    rcases Nat.eq_zero_or_pos m with rfl | hpos
    · rw [toInt_sizeMinusOne_zero]; decide
    · have := toInt_sizeMinusOne_lt hpos
      omega
  omega

theorem replace_newlines_length (str : List Char) :
    (replace_newlines str).length = str.length := by
  simp [replace_newlines]

theorem initState_x (n m : Nat) : (initState n m).x = toInt (sizeMinusOne n) := by
  unfold initState
  dsimp only

theorem initState_y (n m : Nat) : (initState n m).y = toInt (sizeMinusOne m) := by
  unfold initState
  dsimp only

theorem initState_output (n m : Nat) :
    (initState n m).output = List.replicate (max n m) ' ' := by
  unfold initState
  dsimp only

theorem inBounds_initState {left right : List Char} {lcs : Table}
    (hl : 1 ≤ left.length) (hr : 1 ≤ right.length)
    (hd : Dims lcs left.length right.length) :
    InBounds left right lcs (initState left.length right.length) := by
  unfold InBounds
  rw [initState_x, initState_y, initState_output]
  have h1 : toInt (sizeMinusOne left.length) < left.length := toInt_sizeMinusOne_lt hl
  have h2 : toInt (sizeMinusOne right.length) < right.length := toInt_sizeMinusOne_lt hr
  refine ⟨hl, hr, hd, h1, h2, ?_⟩
  simp only [List.length_replicate]

/-! ## The copied symbols -/

theorem copiedSymbols_cons_mark {c : Char} (l : List Char) (h : isMark c = true) :
    copiedSymbols (c :: l) = copiedSymbols l := by
  simp [copiedSymbols, h]

theorem copiedSymbols_set (c : Char) :
    ∀ (l : List Char) (p : Nat), p < l.length →
      (∀ q : Nat, q ≤ p → ∀ d, l[q]? = some d → isMark d = true) →
      copiedSymbols (l.set p c) = copiedSymbols [c] ++ copiedSymbols l := by
  intro l
  induction l with
  | nil => intro p hp; simp at hp
  | cons a t ih =>
    intro p hp hm
    have ha : isMark a = true := hm 0 (Nat.zero_le _) a (by simp)
    cases p with
    | zero =>
      rw [List.set_cons_zero, copiedSymbols_cons_mark t ha]
      unfold copiedSymbols
      rw [List.filter_cons]
      split <;> simp [List.filter_cons, *]
    | succ p1 =>
      rw [List.set_cons_succ, copiedSymbols_cons_mark _ ha, copiedSymbols_cons_mark _ ha]
      apply ih p1 (by simpa using hp)
      intro q hq d hd
      exact hm (q + 1) (by omega) d (by simpa using hd)

theorem copiedSymbols_set_mark {c : Char} (hc : isMark c = true) {l : List Char} {p : Nat}
    (hp : p < l.length) (hm : MarksUpTo l p) : copiedSymbols (l.set p c) = copiedSymbols l := by
  rw [copiedSymbols_set c l p hp (fun q hq d hd => hm q (by omega) d hd)]
  simp [copiedSymbols, hc]

theorem marksUpTo_mono {out : List Char} {k k2 : Int} (h : MarksUpTo out k) (hk : k2 ≤ k) :
    MarksUpTo out k2 :=
  fun p hp c hc => h p (le_trans hp hk) c hc

theorem marksUpTo_set_mark {out : List Char} {k : Int} (h : MarksUpTo out k) {c : Char}
    (hc : isMark c = true) (p : Nat) : MarksUpTo (out.set p c) k := by
  intro q hq d hd
  rw [List.getElem?_set] at hd
  split at hd
  · split at hd
    · cases hd
      exact hc
    · cases hd
  · exact h q hq d hd

theorem marksUpTo_set_above {out : List Char} {k : Int} (h : MarksUpTo out k) (c : Char)
    {p : Nat} (hp : k < p) : MarksUpTo (out.set p c) k := by
  intro q hq d hd
  rw [List.getElem?_set, if_neg (by omega)] at hd
  exact h q hq d hd

theorem strAt_elem {s : List Char} {i : Int} {c : Char} (h : strAt s i = some c)
    (hi : i < s.length) : 0 ≤ i ∧ s[i.toNat]? = some c := by
  unfold strAt at h
  split at h
  · rename_i h0
    have hlt : i.toNat < s.length := by omega
    rw [List.getD_eq_getElem?_getD, List.getElem?_eq_getElem hlt] at h
    simp only [Option.getD_some, Option.some.injEq] at h
    exact ⟨h0.1, by rw [List.getElem?_eq_getElem hlt, h]⟩
  · cases h

theorem drop_of_getElem? {l : List Char} {k : Nat} {c : Char} (h : l[k]? = some c) :
    l.drop k = c :: l.drop (k + 1) := by
  obtain ⟨hk, rfl⟩ := List.getElem?_eq_some.mp h
  exact List.drop_eq_getElem_cons hk

theorem copyCond_true {left right : List Char} {s : State}
    (h : copyCond left right s = some true) (hx : s.x < left.length) (hy : s.y < right.length) :
    0 ≤ s.x ∧ 0 ≤ s.y ∧ ∃ c, strAt left s.x = some c ∧ strAt right s.y = some c ∧
      left[s.x.toNat]? = some c ∧ right[s.y.toNat]? = some c := by
  unfold copyCond at h
  split at h
  · rename_i h0
    simp only [Option.bind_eq_some, Option.some.injEq, decide_eq_true_eq] at h
    obtain ⟨a, ha, b, hb, hab⟩ := h
    subst hab
    exact ⟨h0.1, h0.2, a, ha, hb, (strAt_elem ha hx).2, (strAt_elem hb hy).2⟩
  · cases h

/-- An iteration keeps the invariant of the copied symbols. -/
theorem copyInv_step {left right : List Char} {lcs : Table} {s s1 : State} {r : Rule}
    (hb : InBounds left right lcs s) (hi : CopyInv left right s)
    (hc : 0 < s.x ∨ 0 < s.y) (h : step left right lcs s = some (r, s1)) :
    CopyInv left right s1 := by
  obtain ⟨_, _, _, hx, hy, _⟩ := hb
  obtain ⟨hm, hsl, hsr⟩ := hi
  rcases step_spec hc h with ⟨_, _, _, hcc, hs⟩ | ⟨_, hy0, _, _, hs⟩ | ⟨_, hx0, _, _, _, hs⟩
  · obtain ⟨hx0, hy0, c, hla, hra, hl, hr⟩ := copyCond_true hcc hx hy
    obtain ⟨e1, e2, c2, hread, hset⟩ := copyStep_spec hs
    have hc2 : c2 = c := by
      split at hread
      · rename_i hgt
        rw [max_eq_right (le_of_lt hgt), hra] at hread
        exact (Option.some.inj hread).symm
      · rename_i hgt
        rw [max_eq_left (not_lt.mp hgt), hla] at hread
        exact (Option.some.inj hread).symm
    subst hc2
    obtain ⟨hp0, hplt, hout⟩ := strSet_spec hset
    have hcs : copiedSymbols s1.output = copiedSymbols [c2] ++ copiedSymbols s.output := by
      rw [hout]
      exact copiedSymbols_set c2 _ _ hplt (fun q hq d hd => hm q (by omega) d hd)
    have hone : (copiedSymbols [c2]).Sublist [c2] := List.filter_sublist _
    refine ⟨?_, ?_, ?_⟩
    · rw [hout]
      exact marksUpTo_set_above (marksUpTo_mono hm (by rw [e1, e2]; omega)) _
        (by rw [e1, e2]; omega)
    · rw [hcs, e1]
      have e3 : (s.x - 1 + 1).toNat = s.x.toNat := by omega
      have e4 : (s.x + 1).toNat = s.x.toNat + 1 := by omega
      rw [e3, drop_of_getElem? hl]
      rw [e4] at hsl
      exact hone.append hsl
    · rw [hcs, e2]
      have e3 : (s.y - 1 + 1).toNat = s.y.toNat := by omega
      have e4 : (s.y + 1).toNat = s.y.toNat + 1 := by omega
      rw [e3, drop_of_getElem? hr]
      rw [e4] at hsr
      exact hone.append hsr
  · obtain ⟨e1, e2, out, hset, hout⟩ := insertStep_spec hs
    obtain ⟨hp0, hplt, hout1⟩ := strSet_spec hset
    have hplus : isMark '+' = true := by decide
    have hm1 : MarksUpTo out (max s.x s.y) := by
      rw [hout1]
      exact marksUpTo_set_mark hm hplus _
    have hc1 : copiedSymbols out = copiedSymbols s.output := by
      rw [hout1]
      exact copiedSymbols_set_mark hplus hplt (marksUpTo_mono hm (by omega))
    have hfin : MarksUpTo s1.output (max s.x s.y) ∧
        copiedSymbols s1.output = copiedSymbols s.output := by
      rcases hout with h3 | ⟨_, h3⟩
      · rw [h3]
        exact ⟨hm1, hc1⟩
      · obtain ⟨_, hplt0, hout0⟩ := strSet_spec h3
        rw [hout0]
        refine ⟨marksUpTo_set_mark hm1 hplus _, ?_⟩
        rw [copiedSymbols_set_mark hplus hplt0 (marksUpTo_mono hm1 (by simp; omega)), hc1]
    refine ⟨marksUpTo_mono hfin.1 (by rw [e1, e2]; omega), ?_, ?_⟩
    · rw [hfin.2, e1]
      exact hsl
    · rw [hfin.2, e2]
      exact hsr.trans (List.drop_sublist_drop_left _ (by omega))
  · obtain ⟨e1, e2, out, hset, hout⟩ := deleteStep_spec hs
    obtain ⟨hp0, hplt, hout1⟩ := strSet_spec hset
    have hminus : isMark '-' = true := by decide
    have hm1 : MarksUpTo out (max s.x s.y) := by
      rw [hout1]
      exact marksUpTo_set_mark hm hminus _
    have hc1 : copiedSymbols out = copiedSymbols s.output := by
      rw [hout1]
      exact copiedSymbols_set_mark hminus hplt (marksUpTo_mono hm (by omega))
    have hfin : MarksUpTo s1.output (max s.x s.y) ∧
        copiedSymbols s1.output = copiedSymbols s.output := by
      rcases hout with h3 | ⟨_, h3⟩
      · rw [h3]
        exact ⟨hm1, hc1⟩
      · obtain ⟨_, hplt0, hout0⟩ := strSet_spec h3
        rw [hout0]
        refine ⟨marksUpTo_set_mark hm1 hminus _, ?_⟩
        rw [copiedSymbols_set_mark hminus hplt0 (marksUpTo_mono hm1 (by simp; omega)), hc1]
    refine ⟨marksUpTo_mono hfin.1 (by rw [e1, e2]; omega), ?_, ?_⟩
    · rw [hfin.2, e1]
      exact hsl.trans (List.drop_sublist_drop_left _ (by omega))
    · rw [hfin.2, e2]
      exact hsr

theorem copyInv_initState (left right : List Char) (n m : Nat) :
    CopyInv left right (initState n m) := by
  have hnil : copiedSymbols (List.replicate (max n m) ' ') = [] := by
    unfold copiedSymbols
    rw [List.filter_eq_nil_iff]
    intro a ha
    rw [List.eq_of_mem_replicate ha]
    decide
  unfold CopyInv
  rw [initState_output, hnil]
  refine ⟨?_, List.nil_sublist _, List.nil_sublist _⟩
  intro p _ c hc
  have hmem : c ∈ List.replicate (max n m) ' ' := List.getElem?_mem hc
  rw [List.eq_of_mem_replicate hmem]
  decide

/-! ## Runs of the backtrace -/

/-- Induction along a run that starts in range: no iteration faults, and an
invariant `P` and a property `Q` of the iterations carry along. -/
theorem loop_run_inBounds {left right : List Char} {lcs : Table} (P : State → Prop)
    (Q : Rule → State → State → Prop)
    (hstep : ∀ s r s1, InBounds left right lcs s → P s → (0 < s.x ∨ 0 < s.y) →
      step left right lcs s = some (r, s1) → P s1 ∧ Q r s s1) :
    ∀ fuel s, InBounds left right lcs s → P s → cursorMeasure s ≤ fuel →
      ∃ f h, loop left right lcs fuel s = Outcome.done f h ∧
        (InBounds left right lcs f ∧ P f) ∧ ¬ (0 < f.x ∨ 0 < f.y) ∧
        h.length ≤ cursorMeasure s ∧
        ∀ e ∈ h, (InBounds left right lcs e.2 ∧ P e.2) ∧ (0 < e.2.x ∨ 0 < e.2.y) ∧
          ∃ s1, step left right lcs e.2 = some (e.1, s1) ∧ Q e.1 e.2 s1 := by
  intro fuel s hb hp hm
  refine loop_induct (fun s => InBounds left right lcs s ∧ P s) Q ?_ fuel s ⟨hb, hp⟩ hm
  intro a ha hc
  obtain ⟨r, a1, hs⟩ := step_some ha.1
  have h2 := hstep a r a1 ha.1 ha.2 hc hs
  exact ⟨r, a1, hs, ⟨inBounds_step ha.1 hc hs, h2.1⟩, h2.2⟩

theorem length_pos_of_ne_nil {l : List Char} (h : l ≠ []) : 1 ≤ l.length :=
  List.length_pos.mpr h

/-- The state the backtrace of `main` starts from is in range when both strings are non-empty. -/
theorem inBounds_start {left right : List Char} (hl : left ≠ []) (hr : right ≠ []) :
    InBounds (replace_newlines left) (replace_newlines right) (buildTable left right)
      (initState (replace_newlines left).length (replace_newlines right).length) := by
  apply inBounds_initState
  · rw [replace_newlines_length]; exact length_pos_of_ne_nil hl
  · rw [replace_newlines_length]; exact length_pos_of_ne_nil hr
  · rw [replace_newlines_length, replace_newlines_length]
    exact dims_buildTable left right

theorem cursorMeasure_start (left right : List Char) :
    cursorMeasure (initState (replace_newlines left).length (replace_newlines right).length) ≤
      left.length + right.length := by
  rw [replace_newlines_length, replace_newlines_length]
  exact cursorMeasure_initState _ _

theorem readCell_none {t : Table} {n m : Nat} (hd : Dims t n m) (h0 : n = 0 ∨ m = 0)
    (i j : Int) : readCell t i j = none := by
  unfold readCell
  split
  · cases hrow : t[i.toNat]? with
    | none => rfl
    | some row =>
      have hmem : row ∈ t := List.getElem?_mem hrow
      have hlen := hd.2 row hmem
      have hpos : 0 < t.length := List.length_pos_of_mem hmem
      have hm0 : m = 0 := by
        rcases h0 with h1 | h1
        · have := hd.1
          omega
        · exact h1
      simp only [Option.some_bind]
      exact List.getElem?_eq_none (by omega)
  · rfl

/-- On a table without cells the first access of an iteration is out of range. -/
theorem step_none_of_empty {left right : List Char} {lcs : Table} {n m : Nat}
    (hd : Dims lcs n m) (h0 : n = 0 ∨ m = 0) (s : State) :
    step left right lcs s = none := by
  unfold step
  rw [readCell_none hd h0]
  cases strAt left (max s.x 0) <;> cases strAt right (max s.y 0) <;> rfl

/-- With an empty string the loop of `main` either does not run or stops at
the first access of its first iteration. -/
theorem backtrace_empty {left right : List Char} (h0 : left = [] ∨ right = []) :
    backtrace left right =
        Outcome.done (initState (replace_newlines left).length (replace_newlines right).length) [] ∨
      backtrace left right =
        Outcome.fault (initState (replace_newlines left).length (replace_newlines right).length) [] := by
  unfold backtrace backtraceOn
  generalize hs : initState (replace_newlines left).length (replace_newlines right).length = s0
  by_cases hc : 0 < s0.x ∨ 0 < s0.y
  · right
    have hd := dims_buildTable left right
    have hz : left.length = 0 ∨ right.length = 0 := by
      rcases h0 with h | h
      · left; rw [h]; rfl
      · right; rw [h]; rfl
    have hfuel : 1 ≤ left.length + right.length := by
      by_contra hlt
      have hl : left.length = 0 := by omega
      have hr : right.length = 0 := by omega
      rw [← hs, initState_x, initState_y, replace_newlines_length, replace_newlines_length,
        hl, hr, toInt_sizeMinusOne_zero] at hc
      omega
    obtain ⟨k, hk⟩ : ∃ k, left.length + right.length = k + 1 :=
      ⟨left.length + right.length - 1, by omega⟩
    rw [hk]
    exact loop_succ_fault hc (step_none_of_empty hd hz s0)
  · left
    exact loop_zero_done hc

/-! ## Claims -/

theorem isLcsLength_AB_BA : IsLcsLength ['A', 'B'] ['B', 'A'] 1 := by
  refine ⟨⟨['A'], by decide, by decide, rfl⟩, ?_⟩
  intro s hl hr
  by_contra hlt
  have h1 := hl.length_le
  have h2 := hr.length_le
  simp only [List.length_cons, List.length_nil] at h1 h2
  have h3 : s.length = 2 := by omega
  have e1 := hl.eq_of_length (by simpa using h3)
  have e2 := hr.eq_of_length (by simpa using h3)
  rw [e1] at e2
  exact absurd e2 (by decide)

/-- C1, the code at the failing input left = right = "AB": the built table is
`[[0, 0], [0, 1]]`, it has no cell `[2][2]`, the `LCS:` line of `draw` shows
`lcs[1][1] = 1`, and the length of a longest common subsequence of "AB" and
"AB" is 2. -/
theorem reportedLcs_AB_AB :
    buildTable ['A', 'B'] ['A', 'B'] = [[0, 0], [0, 1]] ∧
      readCell (buildTable ['A', 'B'] ['A', 'B']) 2 2 = none ∧
      reportedLcs ['A', 'B'] ['A', 'B'] = Report.value 1 ∧
      IsLcsLength ['A', 'B'] ['A', 'B'] 2 := by
  refine ⟨by decide, by decide, by decide, ⟨['A', 'B'], List.Sublist.refl _, List.Sublist.refl _, rfl⟩, ?_⟩
  intro s hl _
  have h1 := hl.length_le
  simp only [List.length_cons, List.length_nil] at h1
  omega

/-- C2, counterexample: for left = "AB", right = "BA" the backtrace ends with
`output = "-A"` after a Delete and a Copy iteration; the characters of `output`
other than the Delete mark are "A", not right = "BA", so the round trip fails. -/
theorem roundtrip_fails_AB_BA :
    (backtrace ['A', 'B'] ['B', 'A']).output? = some ['-', 'A'] ∧
      (backtrace ['A', 'B'] ['B', 'A']).rules = [Rule.delete, Rule.copy] ∧
      ¬ (nonDeleteSymbols ['-', 'A'] = ['B', 'A'] ∧ nonInsertSymbols ['-', 'A'] = ['A', 'B']) := by
  decide

/-- C2, amended: whenever the backtrace ends (it does for all non-empty left and
right), `output` has `max n m` positions and its characters other than the
marks `' '`, `'+'`, `'-'`, read in output order, form a subsequence of left and
a subsequence of right, both taken after `replace_newlines`. -/
theorem copiedSymbols_common_subsequence (left right : List Char) :
    (∀ f h, backtrace left right = Outcome.done f h →
        f.output.length = max left.length right.length ∧
        (copiedSymbols f.output).Sublist (replace_newlines left) ∧
        (copiedSymbols f.output).Sublist (replace_newlines right)) ∧
    (left ≠ [] → right ≠ [] → ∃ f h, backtrace left right = Outcome.done f h) := by
  have hfin : ∀ f : State, CopyInv (replace_newlines left) (replace_newlines right) f →
      (copiedSymbols f.output).Sublist (replace_newlines left) ∧
      (copiedSymbols f.output).Sublist (replace_newlines right) :=
    fun f hf => ⟨hf.2.1.trans (List.drop_sublist _ _), hf.2.2.trans (List.drop_sublist _ _)⟩
  by_cases h0 : left = [] ∨ right = []
  · refine ⟨?_, ?_⟩
    · intro f h hd
      rcases backtrace_empty h0 with h1 | h1
      · rw [h1] at hd
        simp only [Outcome.done.injEq] at hd
        obtain ⟨rfl, _⟩ := hd
        refine ⟨?_, hfin _ (copyInv_initState _ _ _ _)⟩
        rw [initState_output, List.length_replicate, replace_newlines_length,
          replace_newlines_length]
      · rw [h1] at hd
        cases hd
    · intro hl hr
      rcases h0 with h | h
      · exact absurd h hl
      · exact absurd h hr
  · have hl : left ≠ [] := fun h => h0 (Or.inl h)
    have hr : right ≠ [] := fun h => h0 (Or.inr h)
    obtain ⟨f, h, hrun, ⟨hbf, hcf⟩, _, _, _⟩ :=
      loop_run_inBounds (CopyInv (replace_newlines left) (replace_newlines right))
        (fun _ _ _ => True)
        (fun s r s1 hb hp hc hs => ⟨copyInv_step hb hp hc hs, trivial⟩)
        (left.length + right.length) _ (inBounds_start hl hr) (copyInv_initState _ _ _ _)
        (cursorMeasure_start left right)
    have hrun2 : backtrace left right = Outcome.done f h := hrun
    refine ⟨?_, fun _ _ => ⟨f, h, hrun2⟩⟩
    intro f2 h2 hd
    rw [hrun2] at hd
    simp only [Outcome.done.injEq] at hd
    obtain ⟨rfl, _⟩ := hd
    refine ⟨?_, hfin _ hcf⟩
    have := hbf.2.2.2.2.2
    rw [replace_newlines_length, replace_newlines_length] at this
    exact this

/-- C2, amended, at left = "AB", right = "BA": the run ends with `output = "-A"`,
whose only copied symbol "A" is a subsequence of both strings. -/
theorem copiedSymbols_common_subsequence_witness :
    (copiedSymbols ['-', 'A']).Sublist (replace_newlines ['A', 'B']) ∧
      (copiedSymbols ['-', 'A']).Sublist (replace_newlines ['B', 'A']) :=
  ((copiedSymbols_common_subsequence ['A', 'B'] ['B', 'A']).1 ⟨-1, 0, ['-', 'A']⟩
    [(Rule.delete, ⟨1, 1, [' ', ' ']⟩), (Rule.copy, ⟨0, 1, ['-', '-']⟩)] (by decide)).2

/-- No branch takes a coordinate of the cursor below `-1`. -/
theorem step_lower {left right : List Char} {lcs : Table} {s s1 : State} {r : Rule}
    (hc : 0 < s.x ∨ 0 < s.y) (h : step left right lcs s = some (r, s1)) :
    (-1 ≤ s.x → -1 ≤ s1.x) ∧ (-1 ≤ s.y → -1 ≤ s1.y) := by
  rcases step_spec hc h with ⟨_, hx, hy, _, hs⟩ | ⟨_, hy, _, _, hs⟩ | ⟨_, hx, _, _, _, hs⟩
  · obtain ⟨e1, e2, _⟩ := copyStep_spec hs
    constructor <;> intro _ <;> omega
  · obtain ⟨e1, e2, _⟩ := insertStep_spec hs
    constructor <;> intro _ <;> omega
  · obtain ⟨e1, e2, _⟩ := deleteStep_spec hs
    constructor <;> intro _ <;> omega

/-- C3, counterexample: for left = "AB", right = "BA" (n = m = 2) the run takes
one Delete and one Copy iteration and leaves `output = "-A"`, so Insert plus
Delete is 1; the `LCS:` value is 0 and the LCS length is 1, and 1 is neither
`2 + 2 - 2 * 0` nor `2 + 2 - 2 * 1`. -/
theorem editCount_fails_AB_BA :
    (backtrace ['A', 'B'] ['B', 'A']).insertDeleteCount = 1 ∧
      (backtrace ['A', 'B'] ['B', 'A']).output? = some ['-', 'A'] ∧
      markCount ['-', 'A'] = 1 ∧
      reportedLcs ['A', 'B'] ['B', 'A'] = Report.value 0 ∧
      IsLcsLength ['A', 'B'] ['B', 'A'] 1 ∧
      ((backtrace ['A', 'B'] ['B', 'A']).insertDeleteCount : Int) ≠
        (['A', 'B'].length : Int) + (['B', 'A'].length : Int) - 2 * 0 ∧
      ((backtrace ['A', 'B'] ['B', 'A']).insertDeleteCount : Int) ≠
        (['A', 'B'].length : Int) + (['B', 'A'].length : Int) - 2 * 1 :=
  ⟨by decide, by decide, by decide, by decide, isLcsLength_AB_BA, by decide, by decide⟩

/-- C3, amended: for non-empty left and right of lengths n, m ≤ 2^31 the
backtrace ends, and the number of Insert iterations plus the number of Delete
iterations equals `(n - 1 - x) + (m - 1 - y) - 2 * c`, where `c` is the number
of Copy iterations and `(x, y)` the cursor the loop ends at: from the start
`(n - 1, m - 1)` a Copy moves the cursor by two, an Insert or a Delete by one. -/
theorem editCount_with_copies (left right : List Char) (hl : left ≠ []) (hr : right ≠ [])
    (hn : left.length ≤ 2 ^ 31) (hm : right.length ≤ 2 ^ 31) :
    ∃ f h, backtrace left right = Outcome.done f h ∧
      ((Outcome.done f h).insertDeleteCount : Int) =
        ((left.length : Int) - 1 - f.x) + ((right.length : Int) - 1 - f.y)
          - 2 * ((Outcome.done f h).rules.count Rule.copy) := by
  have hx0 : (initState (replace_newlines left).length (replace_newlines right).length).x =
      (left.length : Int) - 1 := by
    rw [initState_x, replace_newlines_length, toInt_sizeMinusOne_eq hn]
  have hy0 : (initState (replace_newlines left).length (replace_newlines right).length).y =
      (right.length : Int) - 1 := by
    rw [initState_y, replace_newlines_length, toInt_sizeMinusOne_eq hm]
  obtain ⟨f, h, hrun, _⟩ :=
    loop_run_inBounds (fun _ : State => True) (fun _ _ _ => True)
      (fun _ _ _ _ _ _ _ => ⟨trivial, trivial⟩)
      (left.length + right.length) _ (inBounds_start hl hr) trivial
      (cursorMeasure_start left right)
  refine ⟨f, h, hrun, ?_⟩
  have hsum := loop_weight_sum _ _ _ _ hrun
  have hcount := weight_sum_count (h.map Prod.fst)
  rw [List.map_map] at hcount
  have hfun : (Rule.weight ∘ Prod.fst : Rule × State → Int) = fun e => e.1.weight := rfl
  rw [hfun, hsum, hx0, hy0] at hcount
  simp only [Outcome.insertDeleteCount, Outcome.rules, Nat.cast_add]
  omega

/-- C3, amended, at left = "AB", right = "BA". -/
theorem editCount_with_copies_witness :
    ['A', 'B'] ≠ [] ∧ ['B', 'A'] ≠ [] ∧ ['A', 'B'].length ≤ 2 ^ 31 ∧ ['B', 'A'].length ≤ 2 ^ 31 ∧
      ∃ f h, backtrace ['A', 'B'] ['B', 'A'] = Outcome.done f h ∧
        ((Outcome.done f h).insertDeleteCount : Int) =
          ((['A', 'B'].length : Int) - 1 - f.x) + ((['B', 'A'].length : Int) - 1 - f.y)
            - 2 * ((Outcome.done f h).rules.count Rule.copy) :=
  ⟨by decide, by decide, by decide, by decide,
    editCount_with_copies ['A', 'B'] ['B', 'A'] (by decide) (by decide) (by decide) (by decide)⟩

/-- C4: at a cursor `(x, y)` in range with `x > 0` and `y > 0`, when the
compared symbols `left[x]` and `right[y]` differ and `lcs[x - 1][y]` equals
`lcs[x][y - 1]`, the iteration takes the Delete branch: it writes `'-'` to
`output[x]` (and to `output[0]` when `x` becomes 0), decrements `x` and leaves
`y` unchanged. -/
theorem tie_prefers_delete (left right : List Char) (lcs : Table) (s : State) (a b : Char)
    (v : Int) (hb : InBounds left right lcs s) (hx : 0 < s.x) (hy : 0 < s.y)
    (ha : strAt left s.x = some a) (hb2 : strAt right s.y = some b) (hab : a ≠ b)
    (hup : readCell lcs (s.x - 1) s.y = some v) (hleft : readCell lcs s.x (s.y - 1) = some v) :
    step left right lcs s =
      some (Rule.delete, ⟨s.x - 1, s.y,
        if s.x - 1 = 0 then (s.output.set s.x.toNat '-').set 0 '-'
        else s.output.set s.x.toNat '-'⟩) := by
  obtain ⟨hn, hm, hd, hxn, hym, hout⟩ := hb
  obtain ⟨w, hw⟩ := readCell_some hd (le_max_right s.x 0) (by omega) (le_max_right s.y 0) (by omega)
  have hcopy : copyCond left right s = some false := by
    unfold copyCond
    rw [if_pos ⟨by omega, by omega⟩, ha, hb2]
    simp [hab]
  have hins : insertCond lcs s = some false := by
    unfold insertCond
    rw [if_pos hy, if_neg (by omega), hup, hleft]
    simp
  have hdel : deleteCond lcs s = some true := by
    unfold deleteCond
    rw [if_pos hx, if_neg (by omega), hup, hleft]
    simp
  have hstep : deleteStep s = some ⟨s.x - 1, s.y,
      if s.x - 1 = 0 then (s.output.set s.x.toNat '-').set 0 '-'
      else s.output.set s.x.toNat '-'⟩ := by
    unfold deleteStep
    rw [strSet_some _ _ (by omega) (by rw [hout]; omega)]
    simp only [Option.some_bind]
    split
    · rw [strSet_some _ _ (le_refl _) (by rw [List.length_set, hout]; omega)]
      rfl
    · rfl
  unfold step
  rw [strAt_some left (le_max_right _ _) (by omega),
    strAt_some right (le_max_right _ _) (by omega), hw, hcopy, hins, hdel, hstep]
  rfl

/-- C4 at the first iteration for left = "AB", right = "BA": the cursor is
`(1, 1)`, `'B'` differs from `'A'`, and `lcs[0][1] = lcs[1][0] = 0`. -/
theorem tie_prefers_delete_witness :
    step ['A', 'B'] ['B', 'A'] (buildTable ['A', 'B'] ['B', 'A']) ⟨1, 1, [' ', ' ']⟩ =
      some (Rule.delete, ⟨1 - 1, 1,
        if (1 : Int) - 1 = 0 then ([' ', ' '].set (1 : Int).toNat '-').set 0 '-'
        else [' ', ' '].set (1 : Int).toNat '-'⟩) :=
  tie_prefers_delete ['A', 'B'] ['B', 'A'] (buildTable ['A', 'B'] ['B', 'A'])
    ⟨1, 1, [' ', ' ']⟩ 'B' 'A' 0
    ⟨by decide, by decide, ⟨by decide, by decide⟩, by decide, by decide, by decide⟩
    (by decide) (by decide) (by decide) (by decide) (by decide) (by decide) (by decide)

theorem readCell_eq_cell {t : Table} {n m : Nat} (hd : Dims t n m) {i j : Nat}
    (hi : i < n) (hj : j < m) : readCell t (i : Int) (j : Int) = some (cell t i j) := by
  obtain ⟨row, hrow, hlen⟩ := dims_row hd hi
  have hj2 : j < row.length := by omega
  unfold readCell cell
  rw [if_pos ⟨by omega, by omega⟩]
  simp [hrow, List.getElem?_eq_getElem hj2]

/-- C5: every cell `(i, j)` the built table holds (`i < n`, `j < m`) is readable
and equals the length of a longest common subsequence of the first `i` symbols
of left and the first `j` symbols of right; the cells of row 0 and of column 0
are 0. -/
theorem table_cell_is_prefix_lcs (left right : List Char) (i j : Nat)
    (hi : i < left.length) (hj : j < right.length) :
    readCell (buildTable left right) (i : Int) (j : Int) =
        some (cell (buildTable left right) i j) ∧
      IsLcsLength (left.take i) (right.take j) (cell (buildTable left right) i j) ∧
      ((i = 0 ∨ j = 0) → cell (buildTable left right) i j = 0) := by
  have hc := buildTable_cell left right hi hj
  refine ⟨readCell_eq_cell (dims_buildTable left right) hi hj, hc, ?_⟩
  rintro (rfl | rfl)
  · exact isLcsLength_unique hc (by simpa using isLcsLength_nil_left (right.take j))
  · exact isLcsLength_unique hc (by simpa using isLcsLength_nil_right (left.take i))

/-- C5 at cell `(2, 2)` of the table of left = "ABC", right = "ABD". -/
theorem table_cell_is_prefix_lcs_witness :
    (2 < ['A', 'B', 'C'].length ∧ 2 < ['A', 'B', 'D'].length) ∧
      readCell (buildTable ['A', 'B', 'C'] ['A', 'B', 'D']) ((2 : Nat) : Int) ((2 : Nat) : Int) =
        some (cell (buildTable ['A', 'B', 'C'] ['A', 'B', 'D']) 2 2) ∧
      IsLcsLength (['A', 'B', 'C'].take 2) (['A', 'B', 'D'].take 2)
        (cell (buildTable ['A', 'B', 'C'] ['A', 'B', 'D']) 2 2) ∧
      ((2 = 0 ∨ 2 = 0) → cell (buildTable ['A', 'B', 'C'] ['A', 'B', 'D']) 2 2 = 0) :=
  ⟨⟨by decide, by decide⟩,
    table_cell_is_prefix_lcs ['A', 'B', 'C'] ['A', 'B', 'D'] 2 2 (by decide) (by decide)⟩

/-- C6, the code at the failing inputs.  With left = "" and right = "X" the
loop does not run and `output` stays the single blank (no Insert), and the
`LCS:` line of `draw` reads outside the empty table; the same with left = "X",
right = "" (no Delete).  With left = "" and right = "XY", or left = "XY" and
right = "", the first iteration accesses the table out of range.  With both
strings empty `output` is empty. -/
theorem empty_input_runs :
    backtrace [] ['X'] = Outcome.done ⟨-1, 0, [' ']⟩ [] ∧
      reportedLcs [] ['X'] = Report.fault ∧
      backtrace ['X'] [] = Outcome.done ⟨0, -1, [' ']⟩ [] ∧
      reportedLcs ['X'] [] = Report.fault ∧
      backtrace [] ['X', 'Y'] = Outcome.fault ⟨-1, 1, [' ', ' ']⟩ [] ∧
      backtrace ['X', 'Y'] [] = Outcome.fault ⟨1, -1, [' ', ' ']⟩ [] ∧
      backtrace [] [] = Outcome.done ⟨-1, -1, []⟩ [] := by
  decide

/-- C7, the code at the failing input left = right = "ABC": the loop runs two
Copy iterations, for `'C'` and `'B'`, and stops at the cursor `(0, 0)` with
`output = " BC"`: position 0 is still the blank of the initial fill, there is no
Copy for `'A'`. -/
theorem identical_ABC_run :
    backtrace ['A', 'B', 'C'] ['A', 'B', 'C'] =
        Outcome.done ⟨0, 0, [' ', 'B', 'C']⟩
          [(Rule.copy, ⟨2, 2, [' ', ' ', ' ']⟩), (Rule.copy, ⟨1, 1, [' ', ' ', 'C']⟩)] ∧
      (backtrace ['A', 'B', 'C'] ['A', 'B', 'C']).output? ≠ some ['A', 'B', 'C'] := by
  decide

/-- C8: for non-empty left and right the backtrace loop ends after at most
`n + m` iterations (with any fuel of at least `n + m` the run is the same and
ends with the loop condition false); every iteration performs no out-of-range
access, takes one of the Copy, Insert, Delete branches, and moves the cursor:
no coordinate grows and at least one decreases. -/
theorem backtrace_terminates (left right : List Char) (hl : left ≠ []) (hr : right ≠ []) :
    ∃ f h,
      (∀ fuel, left.length + right.length ≤ fuel →
        backtraceOn left right (buildTable left right) fuel = Outcome.done f h) ∧
      h.length ≤ left.length + right.length ∧ ¬ (0 < f.x ∨ 0 < f.y) ∧
      ∀ e ∈ h, (e.1 = Rule.copy ∨ e.1 = Rule.insert ∨ e.1 = Rule.delete) ∧
        ∃ s1, step (replace_newlines left) (replace_newlines right) (buildTable left right) e.2 =
            some (e.1, s1) ∧
          (s1.x < e.2.x ∨ s1.y < e.2.y) ∧ s1.x ≤ e.2.x ∧ s1.y ≤ e.2.y := by
  obtain ⟨f, h, hrun, _, hcf, hlen, hall⟩ :=
    loop_run_inBounds (fun _ : State => True)
      (fun (r : Rule) (s s1 : State) =>
        (r = Rule.copy ∨ r = Rule.insert ∨ r = Rule.delete) ∧
          (s1.x < s.x ∨ s1.y < s.y) ∧ s1.x ≤ s.x ∧ s1.y ≤ s.y)
      (fun s r s1 _ _ hc hs => by
        obtain ⟨h1, h2, h3, _, _, h6, _⟩ := step_cursor hc hs
        refine ⟨trivial, ?_, ?_, h2, h3⟩
        · cases r <;> simp at h1 ⊢
        · cases r <;> simp only [Rule.weight] at h6 <;> first | omega | exact absurd rfl h1)
      (left.length + right.length) _ (inBounds_start hl hr) trivial
      (cursorMeasure_start left right)
  refine ⟨f, h, ?_, le_trans hlen (cursorMeasure_start left right), hcf, ?_⟩
  · intro fuel hfuel
    exact loop_fuel_ge hrun hfuel
  · intro e he
    obtain ⟨_, _, s1, hs, hq⟩ := hall e he
    exact ⟨hq.1, s1, hs, hq.2⟩

/-- C8 at left = "AB", right = "BA". -/
theorem backtrace_terminates_witness :
    (['A', 'B'] ≠ [] ∧ ['B', 'A'] ≠ []) ∧
    ∃ f h,
      (∀ fuel, ['A', 'B'].length + ['B', 'A'].length ≤ fuel →
        backtraceOn ['A', 'B'] ['B', 'A'] (buildTable ['A', 'B'] ['B', 'A']) fuel =
          Outcome.done f h) ∧
      h.length ≤ ['A', 'B'].length + ['B', 'A'].length ∧ ¬ (0 < f.x ∨ 0 < f.y) ∧
      ∀ e ∈ h, (e.1 = Rule.copy ∨ e.1 = Rule.insert ∨ e.1 = Rule.delete) ∧
        ∃ s1, step (replace_newlines ['A', 'B']) (replace_newlines ['B', 'A'])
            (buildTable ['A', 'B'] ['B', 'A']) e.2 = some (e.1, s1) ∧
          (s1.x < e.2.x ∨ s1.y < e.2.y) ∧ s1.x ≤ e.2.x ∧ s1.y ≤ e.2.y :=
  ⟨⟨by decide, by decide⟩, backtrace_terminates ['A', 'B'] ['B', 'A'] (by decide) (by decide)⟩

theorem loop_done_final {left right : List Char} {lcs : Table} :
    ∀ (fuel : Nat) (s f : State) (h : List (Rule × State)),
      loop left right lcs fuel s = Outcome.done f h → ¬ (0 < f.x ∨ 0 < f.y) := by
  intro fuel
  induction fuel with
  | zero =>
    intro s f h hl
    by_cases hc : 0 < s.x ∨ 0 < s.y
    · simp [loop, hc] at hl
    · rw [loop_zero_done hc] at hl
      cases hl
      exact hc
  | succ n ih =>
    intro s f h hl
    by_cases hc : 0 < s.x ∨ 0 < s.y
    · cases hs : step left right lcs s with
      | none =>
        rw [loop_succ_fault hc hs] at hl
        cases hl
      | some p =>
        obtain ⟨r, s1⟩ := p
        rw [loop_succ_step hc hs] at hl
        cases ho : loop left right lcs n s1 with
        | done f1 h1 =>
          rw [ho] at hl
          simp only [Outcome.push, Outcome.done.injEq] at hl
          obtain ⟨rfl, _⟩ := hl
          exact ih s1 f1 h1 ho
        | fault f1 h1 =>
          rw [ho] at hl
          cases hl
        | outOfFuel =>
          rw [ho] at hl
          cases hl
    · rw [loop_zero_done hc] at hl
      cases hl
      exact hc

/-- C9, counterexample: for left = "AB", right = "BA" the cursor goes through
`(1, 1)`, `(0, 1)` and ends at `(-1, 0)`: `x` leaves the range `0 ≤ x` and the
pass does not end at `(0, 0)`. -/
theorem cursor_leaves_origin_AB_BA :
    (backtrace ['A', 'B'] ['B', 'A']).visited.map (fun s => (s.x, s.y)) =
        [(1, 1), (0, 1), (-1, 0)] ∧
      ¬ (∀ c ∈ (backtrace ['A', 'B'] ['B', 'A']).visited,
          0 ≤ c.x ∧ c.x ≤ 2 ∧ 0 ≤ c.y ∧ c.y ≤ 2) ∧
      (backtrace ['A', 'B'] ['B', 'A']).visited.getLast? ≠
        some ⟨0, 0, ['-', 'A']⟩ := by
  decide

/-- C9, amended: for left and right of lengths n, m ≤ 2^31 the run does not
stop for lack of fuel; every cursor position it goes through, the last one
included, satisfies `-1 ≤ x ≤ n - 1` and `-1 ≤ y ≤ m - 1`; neither coordinate
ever increases; when the pass ends, which it does for non-empty left and right,
the cursor has `x ≤ 0` and `y ≤ 0`. -/
theorem cursor_bounds (left right : List Char) (hn : left.length ≤ 2 ^ 31)
    (hm : right.length ≤ 2 ^ 31) :
    backtrace left right ≠ Outcome.outOfFuel ∧
      (∀ c ∈ (backtrace left right).visited,
        -1 ≤ c.x ∧ c.x ≤ (left.length : Int) - 1 ∧ -1 ≤ c.y ∧ c.y ≤ (right.length : Int) - 1) ∧
      List.Pairwise (fun a b : State => b.x ≤ a.x ∧ b.y ≤ a.y) (backtrace left right).visited ∧
      (∀ f h, backtrace left right = Outcome.done f h → f.x ≤ 0 ∧ f.y ≤ 0) ∧
      (left ≠ [] → right ≠ [] → ∃ f h, backtrace left right = Outcome.done f h) := by
  have hx0 : (initState (replace_newlines left).length (replace_newlines right).length).x =
      (left.length : Int) - 1 := by
    rw [initState_x, replace_newlines_length, toInt_sizeMinusOne_eq hn]
  have hy0 : (initState (replace_newlines left).length (replace_newlines right).length).y =
      (right.length : Int) - 1 := by
    rw [initState_y, replace_newlines_length, toInt_sizeMinusOne_eq hm]
  refine ⟨loop_ne_outOfFuel _ _ (cursorMeasure_start left right), ?_,
    loop_visited_pairwise _ _, ?_, ?_⟩
  · refine loop_visited_inv
      (fun c : State => -1 ≤ c.x ∧ c.x ≤ (left.length : Int) - 1 ∧ -1 ≤ c.y ∧
        c.y ≤ (right.length : Int) - 1) ?_ _ _ ?_
    · intro s r s1 hp hc hs
      obtain ⟨_, h2, h3, _⟩ := step_cursor hc hs
      obtain ⟨h4, h5⟩ := step_lower hc hs
      exact ⟨h4 hp.1, by omega, h5 hp.2.2.1, by omega⟩
    · show -1 ≤ (initState _ _).x ∧ (initState _ _).x ≤ _ ∧ -1 ≤ (initState _ _).y ∧
        (initState _ _).y ≤ _
      rw [hx0, hy0]
      omega
  · intro f h hd
    have := loop_done_final _ _ _ _ hd
    omega
  · intro hl hr
    obtain ⟨f, h, hrun, _⟩ :=
      loop_run_inBounds (fun _ : State => True) (fun _ _ _ => True)
        (fun _ _ _ _ _ _ _ => ⟨trivial, trivial⟩)
        (left.length + right.length) _ (inBounds_start hl hr) trivial
        (cursorMeasure_start left right)
    exact ⟨f, h, hrun⟩

/-- C9, amended, at left = "AB", right = "BA". -/
theorem cursor_bounds_witness :
    (['A', 'B'].length ≤ 2 ^ 31 ∧ ['B', 'A'].length ≤ 2 ^ 31) ∧
      ∀ c ∈ (backtrace ['A', 'B'] ['B', 'A']).visited,
        -1 ≤ c.x ∧ c.x ≤ ((['A', 'B'].length : Nat) : Int) - 1 ∧ -1 ≤ c.y ∧
          c.y ≤ ((['B', 'A'].length : Nat) : Int) - 1 :=
  ⟨⟨by decide, by decide⟩, (cursor_bounds ['A', 'B'] ['B', 'A'] (by decide) (by decide)).2.1⟩

theorem replace_newlines_getElem? (str : List Char) (i : Nat) :
    (replace_newlines str)[i]? = (str[i]?).map (fun c => if isspace c then '^' else c) := by
  simp [replace_newlines, List.getElem?_map]

theorem sym_replace_newlines {str : List Char} {i : Nat} (h : i < str.length) :
    sym (replace_newlines str) i = (if isspace (sym str i) then '^' else sym str i) := by
  unfold sym
  rw [List.getD_eq_getElem?_getD, List.getD_eq_getElem?_getD, replace_newlines_getElem?,
    List.getElem?_eq_getElem h]
  rfl

theorem sym_mem {str : List Char} {i : Nat} (h : i < str.length) : sym str i ∈ str := by
  unfold sym
  rw [List.getD_eq_getElem?_getD, List.getElem?_eq_getElem h]
  exact List.getElem_mem h

/-- What equality of two symbols after `replace_newlines` says about them before. -/
theorem replaced_eq_cases {a b : Char}
    (h : (if isspace a then '^' else a) = (if isspace b then '^' else b)) :
    a = b ∨ ((isspace a = true ∨ a = '^') ∧ (isspace b = true ∨ b = '^')) := by
  by_cases ha : isspace a = true
  · by_cases hb : isspace b = true
    · exact Or.inr ⟨Or.inl ha, Or.inl hb⟩
    · rw [if_pos ha, if_neg hb] at h
      exact Or.inr ⟨Or.inl ha, Or.inr h.symm⟩
  · by_cases hb : isspace b = true
    · rw [if_neg ha, if_pos hb] at h
      exact Or.inr ⟨Or.inr h, Or.inl hb⟩
    · rw [if_neg ha, if_neg hb] at h
      exact Or.inl h

theorem fillCell_replace {left right : List Char}
    (hinj : ∀ a ∈ left, ∀ b ∈ right,
      (isspace a = true ∨ a = '^') → (isspace b = true ∨ b = '^') → a = b)
    (t : Table) {i j : Nat} (hi0 : 1 ≤ i) (hi : i < left.length + 1) (hj0 : 1 ≤ j)
    (hj : j < right.length + 1) :
    fillCell (replace_newlines left) (replace_newlines right) t i j = fillCell left right t i j := by
  have hi1 : i - 1 < left.length := by omega
  have hj1 : j - 1 < right.length := by omega
  have hiff : sym (replace_newlines left) (i - 1) = sym (replace_newlines right) (j - 1) ↔
      sym left (i - 1) = sym right (j - 1) := by
    rw [sym_replace_newlines hi1, sym_replace_newlines hj1]
    constructor
    · intro h
      rcases replaced_eq_cases h with h1 | ⟨h1, h2⟩
      · exact h1
      · exact hinj _ (sym_mem hi1) _ (sym_mem hj1) h1 h2
    · intro h
      rw [h]
  unfold fillCell
  by_cases hc : sym left (i - 1) = sym right (j - 1)
  · rw [if_pos hc, if_pos (hiff.mpr hc)]
  · rw [if_neg hc, if_neg (fun h => hc (hiff.mp h))]

/-- When `replace_newlines` merges no two distinct symbols of the two
strings, the forward pass builds the same table before and after it. -/
theorem buildTable_replace {left right : List Char}
    (hinj : ∀ a ∈ left, ∀ b ∈ right,
      (isspace a = true ∨ a = '^') → (isspace b = true ∨ b = '^') → a = b) :
    buildTable (replace_newlines left) (replace_newlines right) = buildTable left right := by
  unfold buildTable forwardPass allocTable
  rw [replace_newlines_length, replace_newlines_length]
  apply List.foldl_ext
  intro t i hi
  rw [List.mem_range'_1] at hi
  unfold fillRow
  rw [replace_newlines_length]
  apply List.foldl_ext
  intro t2 j hj
  rw [List.mem_range'_1] at hj
  exact fillCell_replace hinj t2 (by omega) (by omega) (by omega) (by omega)

/-- C10, counterexample: a blank and a newline differ before `replace_newlines`
and are the same `'^'` after it; for left = " a", right = "\na" the table built
before the replacement is all zeros, while the table of the replaced strings
has `1` in cell `(1, 1)`. -/
theorem replace_newlines_merges_symbols :
    ([' '] : List Char)[0]? ≠ (['\n'] : List Char)[0]? ∧
      (replace_newlines [' '])[0]? = (replace_newlines ['\n'])[0]? ∧
      buildTable [' ', 'a'] ['\n', 'a'] = [[0, 0], [0, 0]] ∧
      buildTable (replace_newlines [' ', 'a']) (replace_newlines ['\n', 'a']) =
        [[0, 0], [0, 1]] := by
  decide

/-- C10, amended: `replace_newlines` turns every whitespace symbol into `'^'`
and keeps every other symbol.  So `left[i] == right[j]` before the replacement
gives it after, and `left[i] == right[j]` after the replacement gives it
before unless both symbols were whitespace or `'^'`.  When no two distinct
symbols of left and right are both whitespace or `'^'`, the table built
before the replacement is the table of the replaced sequences. -/
theorem replace_newlines_symbol_eq (left right : List Char) :
    (∀ (i j : Nat) (a b : Char), left[i]? = some a → right[j]? = some b →
        (replace_newlines left)[i]? = some (if isspace a then '^' else a) ∧
        (replace_newlines right)[j]? = some (if isspace b then '^' else b) ∧
        (a = b → (replace_newlines left)[i]? = (replace_newlines right)[j]?) ∧
        ((replace_newlines left)[i]? = (replace_newlines right)[j]? →
          a = b ∨ ((isspace a = true ∨ a = '^') ∧ (isspace b = true ∨ b = '^')))) ∧
    ((∀ a ∈ left, ∀ b ∈ right,
        (isspace a = true ∨ a = '^') → (isspace b = true ∨ b = '^') → a = b) →
      buildTable (replace_newlines left) (replace_newlines right) = buildTable left right) := by
  refine ⟨?_, buildTable_replace⟩
  intro i j a b ha hb
  have h1 : (replace_newlines left)[i]? = some (if isspace a then '^' else a) := by
    rw [replace_newlines_getElem?, ha]
    rfl
  have h2 : (replace_newlines right)[j]? = some (if isspace b then '^' else b) := by
    rw [replace_newlines_getElem?, hb]
    rfl
  refine ⟨h1, h2, ?_, ?_⟩
  · intro hab
    rw [h1, h2, hab]
  · intro h
    rw [h1, h2] at h
    exact replaced_eq_cases (Option.some.inj h)

/-- C10, amended, at left = "a b", right = "a b": position 1 of both is the blank. -/
theorem replace_newlines_symbol_eq_witness :
    (replace_newlines ['a', ' ', 'b'])[1]? = some (if isspace ' ' then '^' else ' ') ∧
      buildTable (replace_newlines ['a', ' ', 'b']) (replace_newlines ['a', ' ', 'c']) =
        buildTable ['a', ' ', 'b'] ['a', ' ', 'c'] :=
  ⟨((replace_newlines_symbol_eq ['a', ' ', 'b'] ['a', ' ', 'c']).1 1 1 ' ' ' '
      (by decide) (by decide)).1,
    (replace_newlines_symbol_eq ['a', ' ', 'b'] ['a', ' ', 'c']).2 (by decide)⟩

/-! ## Indexed accesses of the backtrace loop -/

theorem tableAt_inRange {left right : List Char} {lcs : Table} {n m : Nat} (out : List Char)
    (hd : Dims lcs n m) {i j : Int} (hi0 : 0 ≤ i) (hi : i < n) (hj0 : 0 ≤ j) (hj : j < m) :
    Access.inRange left right lcs out (Access.tableAt i j) = true := by
  obtain ⟨row, hrow, hlen⟩ := dims_row hd (by omega : i.toNat < n)
  have hlen2 : (lcs.getD i.toNat []).length = m := by
    rw [List.getD_eq_getElem?_getD, hrow]
    exact hlen
  have hn := hd.1
  simp only [Access.inRange, decide_eq_true_eq]
  rw [hlen2, hn]
  exact ⟨hi0, hi, hj0, hj⟩

theorem copyAccesses_inRange {left right : List Char} {lcs : Table} {s : State}
    (hx0 : 0 ≤ s.x) (hy0 : 0 ≤ s.y) (hx : s.x < left.length) (hy : s.y < right.length)
    (hout : s.output.length = max left.length right.length) :
    ∀ a ∈ copyAccesses s, Access.inRange left right lcs s.output a = true := by
  intro a ha
  unfold copyAccesses at ha
  split at ha
  · simp only [List.mem_cons, List.mem_singleton, List.not_mem_nil, or_false] at ha
    rcases ha with rfl | rfl
    · simp only [Access.inRange, decide_eq_true_eq]; omega
    · simp only [Access.inRange, decide_eq_true_eq]; omega
  · simp only [List.mem_cons, List.mem_singleton, List.not_mem_nil, or_false] at ha
    rcases ha with rfl | rfl
    · simp only [Access.inRange, decide_eq_true_eq]; omega
    · simp only [Access.inRange, decide_eq_true_eq]; omega

theorem tieAccesses_inRange {left right : List Char} {lcs : Table} {n m : Nat} {s : State}
    (hd : Dims lcs n m) (hx : s.x < n) (hy : s.y < m) :
    ∀ a ∈ tieAccesses s, Access.inRange left right lcs s.output a = true := by
  intro a ha
  unfold tieAccesses at ha
  split at ha
  · rename_i h0
    simp only [List.mem_cons, List.mem_singleton, List.not_mem_nil, or_false] at ha
    rcases ha with rfl | rfl
    · exact tableAt_inRange _ hd (by omega) (by omega) (by omega) hy
    · exact tableAt_inRange _ hd (by omega) hx (by omega) (by omega)
  · simp at ha

theorem insertAccesses_inRange {left right : List Char} {lcs : Table} {s : State}
    (hy0 : 0 < s.y) (hy : s.y < s.output.length) :
    ∀ a ∈ insertAccesses s, Access.inRange left right lcs s.output a = true := by
  intro a ha
  unfold insertAccesses at ha
  rcases List.mem_cons.mp ha with rfl | h2
  · simp only [Access.inRange, decide_eq_true_eq]; omega
  · split at h2
    · simp only [List.mem_singleton] at h2
      subst h2
      simp only [Access.inRange, decide_eq_true_eq]; omega
    · simp at h2

theorem deleteAccesses_inRange {left right : List Char} {lcs : Table} {s : State}
    (hx0 : 0 < s.x) (hx : s.x < s.output.length) :
    ∀ a ∈ deleteAccesses s, Access.inRange left right lcs s.output a = true := by
  intro a ha
  unfold deleteAccesses at ha
  rcases List.mem_cons.mp ha with rfl | h2
  · simp only [Access.inRange, decide_eq_true_eq]; omega
  · split at h2
    · simp only [List.mem_singleton] at h2
      subst h2
      simp only [Access.inRange, decide_eq_true_eq]; omega
    · simp at h2

/-- With the cursor and the buffer in range, every index an iteration uses is within bounds. -/
theorem stepAccesses_inRange {left right : List Char} {lcs : Table} {s : State}
    (hb : InBounds left right lcs s) :
    ∀ a ∈ stepAccesses left right lcs s, Access.inRange left right lcs s.output a = true := by
  obtain ⟨hn, hm, hd, hx, hy, hout⟩ := hb
  intro a ha
  unfold stepAccesses at ha
  rcases List.mem_append.mp ha with h1 | h1
  · rcases List.mem_append.mp h1 with h2 | h2
    · simp only [List.mem_cons, List.mem_singleton, List.not_mem_nil, or_false] at h2
      rcases h2 with rfl | rfl | rfl
      · simp only [Access.inRange, decide_eq_true_eq]; omega
      · simp only [Access.inRange, decide_eq_true_eq]; omega
      · exact tableAt_inRange _ hd (le_max_right _ _) (by omega) (le_max_right _ _) (by omega)
    · split at h2
      · rename_i h0
        simp only [List.mem_cons, List.mem_singleton, List.not_mem_nil, or_false] at h2
        rcases h2 with rfl | rfl
        · simp only [Access.inRange, decide_eq_true_eq]; omega
        · simp only [Access.inRange, decide_eq_true_eq]; omega
      · simp at h2
  · split at h1
    · rename_i hcc
      obtain ⟨hx0, hy0, _⟩ := copyCond_true hcc hx hy
      exact copyAccesses_inRange hx0 hy0 hx hy hout a h1
    · rcases List.mem_append.mp h1 with h2 | h2
      · exact tieAccesses_inRange hd hx hy a h2
      · split at h2
        · rename_i hi
          have hy0 : 0 < s.y := by
            by_contra hneg
            simp [insertCond, hneg] at hi
          exact insertAccesses_inRange hy0 (by rw [hout]; omega) a h2
        · rcases List.mem_append.mp h2 with h3 | h3
          · exact tieAccesses_inRange hd hx hy a h3
          · split at h3
            · rename_i hdl
              have hx0 : 0 < s.x := by
                by_contra hneg
                simp [deleteCond, hneg] at hdl
              exact deleteAccesses_inRange hx0 (by rw [hout]; omega) a h3
            · simp at h3

theorem readCell_of_inRange {left right : List Char} {lcs : Table} {out : List Char} {i j : Int}
    (h : Access.inRange left right lcs out (Access.tableAt i j) = true) :
    ∃ v, readCell lcs i j = some v := by
  simp only [Access.inRange, decide_eq_true_eq] at h
  obtain ⟨hi0, hi, hj0, hj⟩ := h
  have hi2 : i.toNat < lcs.length := by omega
  rw [List.getD_eq_getElem?_getD, List.getElem?_eq_getElem hi2, Option.getD_some] at hj
  have hj2 : j.toNat < (lcs[i.toNat]).length := by omega
  refine ⟨(lcs[i.toNat])[j.toNat], ?_⟩
  unfold readCell
  rw [if_pos ⟨hi0, hj0⟩, List.getElem?_eq_getElem hi2]
  simp only [Option.some_bind]
  exact List.getElem?_eq_getElem hj2

theorem tie_reads_of_inRange {left right : List Char} {lcs : Table} {s : State}
    (h : ∀ a ∈ tieAccesses s, Access.inRange left right lcs s.output a = true)
    (hx : 0 < s.x) (hy : 0 < s.y) :
    ∃ u v, readCell lcs (s.x - 1) s.y = some u ∧ readCell lcs s.x (s.y - 1) = some v := by
  have hmem : tieAccesses s = [Access.tableAt (s.x - 1) s.y, Access.tableAt s.x (s.y - 1)] := by
    unfold tieAccesses
    rw [if_pos ⟨hx, hy⟩]
  rw [hmem] at h
  obtain ⟨u, hu⟩ := readCell_of_inRange (h _ (List.mem_cons_self _ _))
  obtain ⟨v, hv⟩ := readCell_of_inRange (h _ (List.mem_cons_of_mem _ (List.mem_singleton.mpr rfl)))
  exact ⟨u, v, hu, hv⟩

/-- The list `stepAccesses` leaves out no access of an iteration: when all of
them are within bounds, the iteration completes. -/
theorem step_some_of_accesses {left right : List Char} {lcs : Table} {s : State}
    (h : ∀ a ∈ stepAccesses left right lcs s, Access.inRange left right lcs s.output a = true) :
    ∃ r s1, step left right lcs s = some (r, s1) := by
  unfold stepAccesses at h
  simp only [List.mem_append] at h
  have hL := h (Access.leftRead (max s.x 0)) (Or.inl (Or.inl (by simp)))
  have hR := h (Access.rightRead (max s.y 0)) (Or.inl (Or.inl (by simp)))
  have hT := h (Access.tableAt (max s.x 0) (max s.y 0)) (Or.inl (Or.inl (by simp)))
  simp only [Access.inRange, decide_eq_true_eq] at hL hR
  obtain ⟨w, hw⟩ := readCell_of_inRange hT
  have hxn : s.x < left.length := by omega
  have hyn : s.y < right.length := by omega
  obtain ⟨c, hcc⟩ := copyCond_some hxn hyn
  unfold step
  rw [strAt_some left (le_max_right _ _) (by omega),
    strAt_some right (le_max_right _ _) (by omega), hw, hcc]
  simp only [Option.some_bind]
  cases c with
  | true =>
    have h0 : 0 ≤ s.x ∧ 0 ≤ s.y := by
      by_contra hneg
      simp [copyCond, hneg] at hcc
    have hacc : ∀ a ∈ copyAccesses s, Access.inRange left right lcs s.output a = true := by
      intro a ha
      apply h a
      right
      rw [if_pos hcc]
      exact ha
    have hwr : max s.x s.y < s.output.length := by
      unfold copyAccesses at hacc
      split at hacc
      · have := hacc (Access.outputWrite s.y) (by simp)
        simp only [Access.inRange, decide_eq_true_eq] at this
        omega
      · have := hacc (Access.outputWrite s.x) (by simp)
        simp only [Access.inRange, decide_eq_true_eq] at this
        omega
    have hcs : ∃ s1, copyStep left right s = some s1 := by
      unfold copyStep
      split
      · rw [strAt_some right h0.2 (by omega)]
        simp only [Option.some_bind]
        rw [strSet_some _ _ h0.2 (by omega)]
        exact ⟨_, rfl⟩
      · rw [strAt_some left h0.1 (by omega)]
        simp only [Option.some_bind]
        rw [strSet_some _ _ h0.1 (by omega)]
        exact ⟨_, rfl⟩
    obtain ⟨s1, hs1⟩ := hcs
    rw [hs1]
    exact ⟨_, _, rfl⟩
  | false =>
    have hne : ¬ (copyCond left right s = some true) := by rw [hcc]; simp
    have hrest : ∀ a, (a ∈ tieAccesses s ∨
        a ∈ (if insertCond lcs s = some true then insertAccesses s
          else tieAccesses s ++
            (if deleteCond lcs s = some true then deleteAccesses s else []))) →
        Access.inRange left right lcs s.output a = true := by
      intro a ha
      apply h a
      right
      rw [if_neg hne]
      exact List.mem_append.mpr ha
    have htie : ∀ a ∈ tieAccesses s, Access.inRange left right lcs s.output a = true :=
      fun a ha => hrest a (Or.inl ha)
    have hic : ∃ i, insertCond lcs s = some i := by
      unfold insertCond
      split
      · split
        · exact ⟨_, rfl⟩
        · obtain ⟨u, v, hu, hv⟩ := tie_reads_of_inRange htie (by omega) (by omega)
          rw [hu, hv]
          exact ⟨_, rfl⟩
      · exact ⟨_, rfl⟩
    have hdc : ∃ d, deleteCond lcs s = some d := by
      unfold deleteCond
      split
      · split
        · exact ⟨_, rfl⟩
        · obtain ⟨u, v, hu, hv⟩ := tie_reads_of_inRange htie (by omega) (by omega)
          rw [hu, hv]
          exact ⟨_, rfl⟩
      · exact ⟨_, rfl⟩
    obtain ⟨i, hi⟩ := hic
    rw [hi]
    simp only [Option.some_bind, Bool.false_eq_true, if_false]
    cases i with
    | true =>
      have h0 : 0 < s.y := by
        by_contra hneg
        simp [insertCond, hneg] at hi
      have hwr := hrest (Access.outputWrite s.y) (Or.inr (by
        rw [if_pos hi]
        exact List.mem_cons_self _ _))
      simp only [Access.inRange, decide_eq_true_eq] at hwr
      obtain ⟨s1, hs1⟩ := insertStep_some h0 hwr.2
      rw [hs1]
      exact ⟨_, _, rfl⟩
    | false =>
      obtain ⟨d, hd⟩ := hdc
      rw [hd]
      simp only [Option.some_bind, Bool.false_eq_true, if_false]
      cases d with
      | true =>
        have h0 : 0 < s.x := by
          by_contra hneg
          simp [deleteCond, hneg] at hd
        have hni : ¬ (insertCond lcs s = some true) := by rw [hi]; simp
        have hwr := hrest (Access.outputWrite s.x) (Or.inr (by
          rw [if_neg hni, if_pos hd]
          exact List.mem_append.mpr (Or.inr (List.mem_cons_self _ _))))
        simp only [Access.inRange, decide_eq_true_eq] at hwr
        obtain ⟨s1, hs1⟩ := deleteStep_some h0 hwr.2
        rw [hs1]
        exact ⟨_, _, rfl⟩
      | false => exact ⟨_, _, rfl⟩

/-- C11: for non-empty left and right the backtrace loop runs to its end, and
at every iteration every read of `left`, of `right` and of the table and every
write to `output` uses an index with `0 ≤ index < size`; accordingly the
iteration, which checks each of its accesses, completes. -/
theorem backtrace_accesses_in_range (left right : List Char) (hl : left ≠ [])
    (hr : right ≠ []) :
    ∃ f h, backtrace left right = Outcome.done f h ∧
      ∀ e ∈ h,
        (∀ a ∈ stepAccesses (replace_newlines left) (replace_newlines right)
            (buildTable left right) e.2,
          Access.inRange (replace_newlines left) (replace_newlines right)
            (buildTable left right) e.2.output a = true) ∧
        ∃ s1, step (replace_newlines left) (replace_newlines right) (buildTable left right) e.2 =
          some (e.1, s1) := by
  obtain ⟨f, h, hrun, _, _, _, hall⟩ :=
    loop_run_inBounds (fun _ : State => True) (fun _ _ _ => True)
      (fun _ _ _ _ _ _ _ => ⟨trivial, trivial⟩)
      (left.length + right.length) _ (inBounds_start hl hr) trivial
      (cursorMeasure_start left right)
  refine ⟨f, h, hrun, ?_⟩
  intro e he
  obtain ⟨⟨hb, _⟩, _, s1, hs, _⟩ := hall e he
  exact ⟨stepAccesses_inRange hb, s1, hs⟩

/-- C11 at left = "AB", right = "BA". -/
theorem backtrace_accesses_in_range_witness :
    (['A', 'B'] ≠ [] ∧ ['B', 'A'] ≠ []) ∧
    ∃ f h, backtrace ['A', 'B'] ['B', 'A'] = Outcome.done f h ∧
      ∀ e ∈ h,
        (∀ a ∈ stepAccesses (replace_newlines ['A', 'B']) (replace_newlines ['B', 'A'])
            (buildTable ['A', 'B'] ['B', 'A']) e.2,
          Access.inRange (replace_newlines ['A', 'B']) (replace_newlines ['B', 'A'])
            (buildTable ['A', 'B'] ['B', 'A']) e.2.output a = true) ∧
        ∃ s1, step (replace_newlines ['A', 'B']) (replace_newlines ['B', 'A'])
          (buildTable ['A', 'B'] ['B', 'A']) e.2 = some (e.1, s1) :=
  ⟨⟨by decide, by decide⟩,
    backtrace_accesses_in_range ['A', 'B'] ['B', 'A'] (by decide) (by decide)⟩

end MyDiff
